import Mathlib

/-!
Shallow embedding of BinarySearchTree.hpp

The class template `BinarySearchTree<T, Compare, Equal>` of
`src/BinarySearchTree.hpp` is embedded as follows.

* A `Node*` that owns its pointee is a value of the inductive type `Node T`;
  `nullptr` is `Node.nil`.  Ownership is exclusive in the source (every node
  has exactly one incoming link), so the heap reachable from `root` is a tree
  and the state of a `BinarySearchTree` object is the value of its `root`.
* The functors `Compare` and `Equal` are stateless; they are passed to every
  operation as Boolean functions `compare` and `equals`.
* A non-owning `const Node*` held by a `const_iterator` is the address of a
  node: the chain of child links that leads from the root to it (`Pos`),
  `none` for `nullptr`.  Two such pointers into one tree are equal exactly
  when their chains are equal.
* Loops that follow child links are structural recursions on the subtree
  still ahead of the loop variable.
* Dereferencing `nullptr` is undefined in the source; the operations that can
  do so return `Option`, with `none` for that event.
* `int` sizes are natural numbers (no tree of 2^31 nodes is considered).
-/

namespace BinarySearchTree

/-! ## Data model -/

/-- Struct `Node` (lines 33-67): a value and two owning child links. `nil` is `nullptr`. -/
inductive Node (T : Type) where
  | nil : Node T
  | node (left : Node T) (value : T) (right : Node T) : Node T
  deriving DecidableEq

/-- One child link. -/
inductive Dir where
  | left : Dir
  | right : Dir
  deriving DecidableEq

/-- Address of a node inside a tree: the child links followed from the root. -/
abbrev Pos := List Dir

/-- Class `const_iterator` (lines 401-547): members `n` and `root`; the member
`compare` is the stateless functor and is passed to the increment instead. -/
structure const_iterator (T : Type) where
  n : Option Pos
  root : Node T
  deriving DecidableEq

variable {T : Type}

/-- The subtree found by following the links of `p` from `t` (`nil` when a link is null). -/
def nodeAt : Node T → Pos → Node T
  | t, [] => t
  | .nil, _ :: _ => .nil
  | .node l _ _, Dir.left :: p => nodeAt l p
  | .node _ _ r, Dir.right :: p => nodeAt r p

/-- The value read through a pointer to address `p` (`n->value`); `none` when nothing is there. -/
def valueAt (t : Node T) (p : Pos) : Option T :=
  match nodeAt t p with
  | .nil => none
  | .node _ v _ => some v

/-! ## Private helpers of the class -/

/-- Method `toString(os, node)` (lines 79-85): `render` is `operator<<` of `T`, the stream is
the text written so far. -/
def toString (render : T → String) (os : String) : Node T → String
  | .nil => os
  | .node l v r => toString render (toString render os l ++ render v ++ " ") r

/-- The values in the order `toString` visits them: left subtree, node, right subtree. -/
def inorder : Node T → List T
  | .nil => []
  | .node l v r => inorder l ++ v :: inorder r

/-- Method `size(node)` (lines 93-98). -/
def sizeNode : Node T → Nat
  | .nil => 0
  | .node l _ r => 1 + sizeNode l + sizeNode r

/-- The loop `while (temp->left != nullptr) temp = temp->left` of `deleteNode` (lines 124-127),
started at a node with left link `l` and value `v`; the result is `temp->value` after the loop. -/
def leftmostValue : Node T → T → T
  | .nil, v => v
  | .node ll lv _, _ => leftmostValue ll lv

/-- Method `deleteNode(node, value)` (lines 106-134); the result is the new value of the
reference parameter `node`. -/
def deleteNode (compare : T → T → Bool) : Node T → T → Node T
  | .nil, _ => .nil
  | .node l x r, value =>
    if compare value x then
      .node (deleteNode compare l value) x r
    else if compare x value then
      .node l x (deleteNode compare r value)
    else
      match l with
      | .nil => r
      | .node ll lx lr =>
        match r with
        | .nil => .node ll lx lr
        | .node rl rv _ =>
          .node (.node ll lx lr) (leftmostValue rl rv) (deleteNode compare r (leftmostValue rl rv))

/-- Method `deleteSubtree` followed by `root = nullptr` (lines 141-147 and 360-363). -/
def clear (_root : Node T) : Node T := .nil

/-- Method `copyNodes(node)` (lines 155-163). -/
def copyNodes : Node T → Node T
  | .nil => .nil
  | .node l v r => .node (copyNodes l) v (copyNodes r)

/-- Method `findNode(node, value)` (lines 172-180): the subtree rooted at the node found. -/
def findNode (compare equals : T → T → Bool) : Node T → T → Node T
  | .nil, _ => .nil
  | .node l x r, value =>
    if equals value x then .node l x r
    else if compare value x then findNode compare equals l value
    else findNode compare equals r value

/-! ## Public operations -/

/-- Method `insert(value)` (lines 279-306).  The loop descends from the root; on a node that is
neither before nor after `value` the fresh node is discarded and the tree is left as it was;
when the loop variable becomes null the fresh node is linked under the last node visited, on
the side given by `compare(value, parent->value)`, which is the side the loop just took. -/
def insert (compare : T → T → Bool) : Node T → T → Node T
  | .nil, value => .node .nil value .nil
  | .node l x r, value =>
    if compare value x then
      .node (insert compare l value) x r
    else if compare x value then
      .node l x (insert compare r value)
    else
      .node l x r

/-- Method `contains(value)` (lines 316-328). -/
def contains (compare equals : T → T → Bool) : Node T → T → Bool
  | .nil, _ => false
  | .node l x r, value =>
    if equals value x then true
    else if compare value x then contains compare equals l value
    else contains compare equals r value

/-- Method `size()` (lines 337-339). -/
def size (root : Node T) : Nat := sizeNode root

/-- Method `remove(value)` (lines 348-353). -/
def remove (compare : T → T → Bool) (root : Node T) (value : T) : Node T :=
  match root with
  | .nil => .nil
  | .node l x r => deleteNode compare (.node l x r) value

/-- Method `subtree(value)` (lines 375-382). -/
def subtree (compare equals : T → T → Bool) (root : Node T) (value : T) : Node T :=
  match findNode compare equals root value with
  | .nil => .nil
  | .node l x r => copyNodes (.node l x r)

/-! ## The cursor -/

/-- The loop `while (n->left != nullptr) n = n->left` (lines 489-491 and 557-559), started at
the non-null node `t`: the links followed. -/
def leftmostPos : Node T → Pos
  | .nil => []
  | .node .nil _ _ => []
  | .node (.node ll lv lr) _ _ => Dir.left :: leftmostPos (.node ll lv lr)

/-- Method `begin()` (lines 554-562). -/
def begin (root : Node T) : const_iterator T :=
  match root with
  | .nil => { n := none, root := root }
  | .node _ _ _ => { n := some (leftmostPos root), root := root }

/-- Method `end()` (lines 569-571). -/
def endIter (root : Node T) : const_iterator T :=
  { n := none, root := root }

/-- Method `operator*` (lines 449-451); `none` when `n` is null or addresses nothing. -/
def deref (it : const_iterator T) : Option T :=
  match it.n with
  | none => none
  | some p => valueAt it.root p

/-- The loop `while (current != n)` of `operator++` (lines 493-503). `nv` is `n->value`, `n` the
address held by the cursor, the first explicit argument the subtree at `current`, `cur` the
address of `current`, `parent` the variable of that name.  The result is `parent` when the
loop ends; `none` when `current` becomes null, which the source then dereferences. -/
def redescend (compare : T → T → Bool) (nv : T) (n : Pos) :
    Node T → Pos → Option Pos → Option (Option Pos)
  | .nil, _, _ => none
  | .node l x r, cur, parent =>
    if cur = n then some parent
    else if compare nv x then redescend compare nv n l (cur ++ [Dir.left]) (some cur)
    else redescend compare nv n r (cur ++ [Dir.right]) parent

/-- Method `operator++()` (lines 482-506). `none` when the cursor addresses no node of its tree
or the re-descent runs off the tree. -/
def preIncrement (compare : T → T → Bool) (it : const_iterator T) : Option (const_iterator T) :=
  match it.n with
  | none => some it
  | some p =>
    match nodeAt it.root p with
    | .nil => none
    | .node _ v r =>
      match r with
      | .node _ _ _ => some { it with n := some (p ++ Dir.right :: leftmostPos r) }
      | .nil =>
        match redescend compare v p it.root [] none with
        | none => none
        | some parent => some { it with n := parent }

/-- Method `operator==` of the cursor (lines 516-518): only `n` is compared. -/
def iterEq (a b : const_iterator T) : Bool := decide (a.n = b.n)

/-- Constructor from a sequence (lines 236-246): the elements are inserted one after another
into an empty tree. -/
def fromSequence (compare : T → T → Bool) (xs : List T) : Node T :=
  xs.foldl (insert compare) .nil

/-- The cursor after `k` applications of `operator++`. -/
def advance (compare : T → T → Bool) : Nat → const_iterator T → Option (const_iterator T)
  | 0, it => some it
  | k + 1, it =>
    match preIncrement compare it with
    | none => none
    | some next => advance compare k next

/-- The loop `for (i = bst.begin(), ie = bst.end(); i != ie; ++i)` (lines 584-587) collecting
`*i`, started at cursor `it`. `fuel` bounds the number of iterations: `none` when it runs out
before the cursor equals `end()`, or when a step is undefined. -/
def walk (compare : T → T → Bool) : Nat → const_iterator T → Option (List T)
  | fuel, it =>
    if iterEq it (endIter it.root) then some []
    else
      match fuel with
      | 0 => none
      | fuel + 1 =>
        match deref it, preIncrement compare it with
        | some v, some next =>
          match walk compare fuel next with
          | some rest => some (v :: rest)
          | none => none
        | _, _ => none

/-- One mutation of a tree. -/
inductive Op (T : Type) where
  | insert (value : T) : Op T
  | remove (value : T) : Op T

/-- The tree after one mutation. -/
def applyOp (compare : T → T → Bool) (root : Node T) : Op T → Node T
  | .insert v => insert compare root v
  | .remove v => remove compare root v

/-- The tree after a sequence of mutations, first to last. -/
def applyOps (compare : T → T → Bool) (root : Node T) (ops : List (Op T)) : Node T :=
  ops.foldl (applyOp compare) root

/-! ## Copying, assignment, output -/

/-- Copy constructor (lines 201-210) when every allocation succeeds: the new object's root. -/
def copyConstruct (bst : Node T) : Node T :=
  match bst with
  | .nil => .nil
  | .node l v r => copyNodes (.node l v r)

/-- Copy assignment `operator=` (lines 257-270) when every allocation succeeds: the root of
`*this` afterwards. `self` is the root of `*this` before, `sameObject` is `this == &bst` (then
`self` and `bst` are the same object). Otherwise a temporary copy of `bst` is built, the roots
are swapped and the temporary takes the old root away with it. -/
def operatorAssign (self bst : Node T) (sameObject : Bool) : Node T :=
  if sameObject then self else copyConstruct bst

/-- Method `copyNodes` (lines 155-163) under an allocator that serves `budget` more
`new Node` and then throws `std::bad_alloc`: the copy and the budget left, or `none` when the
exception leaves the function. -/
def copyNodesAlloc : Node T → Nat → Option (Node T × Nat)
  | .nil, budget => some (.nil, budget)
  | .node _ _ _, 0 => none
  | .node l v r, budget + 1 =>
    match copyNodesAlloc l budget with
    | none => none
    | some (newLeft, budget1) =>
      match copyNodesAlloc r budget1 with
      | none => none
      | some (newRight, budget2) => some (.node newLeft v newRight, budget2)

/-- Copy constructor (lines 201-210) under the bounded allocator: `none` when the exception
leaves the constructor (its handler clears the object under construction and rethrows). -/
def copyConstructAlloc (bst : Node T) (budget : Nat) : Option (Node T × Nat) :=
  match bst with
  | .nil => some (.nil, budget)
  | .node l v r => copyNodesAlloc (.node l v r) budget

/-- Copy assignment `operator=` (lines 257-270) under the bounded allocator, for distinct
objects: the root of `*this` afterwards and whether an exception reaches the caller. When the
construction of the temporary throws, the handler of `operator=` runs `clear()` on `*this`
and rethrows. -/
def operatorAssignAlloc (self bst : Node T) (budget : Nat) : Node T × Bool :=
  match copyConstructAlloc bst budget with
  | some (tmp, _) => (tmp, false)
  | none => (clear self, true)

/-- A tree whose nodes carry the address of the heap cell that holds them. -/
inductive Cells (T : Type) where
  | nil : Cells T
  | node (addr : Nat) (left : Cells T) (value : T) (right : Cells T) : Cells T

/-- The addresses of the cells of a tree. -/
def Cells.addrs : Cells T → List Nat
  | .nil => []
  | .node a l _ r => a :: (Cells.addrs l ++ Cells.addrs r)

/-- The tree with the addresses forgotten. -/
def Cells.toNode : Cells T → Node T
  | .nil => .nil
  | .node _ l v r => .node (Cells.toNode l) v (Cells.toNode r)

/-- Method `copyNodes` (lines 155-163) with the cells made explicit: `fresh live` is the
address `new Node` returns when the addresses `live` are in use; the result is the copy and
the addresses in use afterwards. -/
def copyNodesCells (fresh : List Nat → Nat) : Cells T → List Nat → Cells T × List Nat
  | .nil, live => (.nil, live)
  | .node _ l v r, live =>
    let newLeft := copyNodesCells fresh l (fresh live :: live)
    let newRight := copyNodesCells fresh r newLeft.2
    (.node (fresh live) newLeft.1 v newRight.1, newRight.2)

/-- Two tree objects of one program, each the owner of its nodes. -/
structure TwoTrees (T : Type) where
  a : Node T
  b : Node T

/-- The statement `b = a;`. -/
def TwoTrees.assignB (s : TwoTrees T) : TwoTrees T :=
  { a := s.a, b := operatorAssign s.b s.a false }

/-- The declaration `BinarySearchTree b(a);` in place of the former `b`. -/
def TwoTrees.constructB (s : TwoTrees T) : TwoTrees T :=
  { a := s.a, b := copyConstruct s.a }

/-- Mutations applied to the object `a`. -/
def TwoTrees.mutateA (compare : T → T → Bool) (ops : List (Op T)) (s : TwoTrees T) :
    TwoTrees T :=
  { a := applyOps compare s.a ops, b := s.b }

/-- Mutations applied to the object `b`. -/
def TwoTrees.mutateB (compare : T → T → Bool) (ops : List (Op T)) (s : TwoTrees T) :
    TwoTrees T :=
  { a := s.a, b := applyOps compare s.b ops }

/-- Friend `operator<<` (lines 393-396): the stream after the tree is written to it. -/
def operatorOut (render : T → String) (os : String) (bst : Node T) : String :=
  toString render os bst

/-- The loop of `printIF` (lines 584-587) from cursor `it` on, `out` being the text on
`std::cout` so far. `fuel` bounds the number of iterations as in `walk`. -/
def printIFLoop (compare : T → T → Bool) (render : T → String) (pred : T → Bool) :
    Nat → const_iterator T → String → Option String
  | fuel, it, out =>
    if iterEq it (endIter it.root) then some out
    else
      match fuel with
      | 0 => none
      | fuel + 1 =>
        match deref it, preIncrement compare it with
        | some v, some next =>
          printIFLoop compare render pred fuel next
            (if pred v then out ++ render v ++ " " else out)
        | _, _ => none

/-- Function `printIF(bst, pred)` (lines 580-588). -/
def printIF (compare : T → T → Bool) (render : T → String) (pred : T → Bool) (fuel : Nat)
    (bst : Node T) (out : String) : Option String :=
  printIFLoop compare render pred fuel (begin bst) out

/-- Method `operator++(int)` (lines 469-473): the cursor returned, a copy of the cursor
before the step, and the cursor after the step. -/
def postIncrement (compare : T → T → Bool) (it : const_iterator T) :
    Option (const_iterator T × const_iterator T) :=
  match preIncrement compare it with
  | none => none
  | some next => some ({ n := it.n, root := it.root }, next)

/-- The loop `while (current != n)` of `operator++` (lines 493-503) as in `redescend`,
recording the addresses `current` takes, the last one included; `none` when `current` becomes
null. -/
def redescendVisits (compare : T → T → Bool) (nv : T) (n : Pos) :
    Node T → Pos → Option (List Pos)
  | .nil, _ => none
  | .node l x r, cur =>
    if cur = n then some [cur]
    else if compare nv x then
      match redescendVisits compare nv n l (cur ++ [Dir.left]) with
      | none => none
      | some rest => some (cur :: rest)
    else
      match redescendVisits compare nv n r (cur ++ [Dir.right]) with
      | none => none
      | some rest => some (cur :: rest)

/-- Method `deleteSubtree` (lines 141-147) with the cells made explicit: the addresses passed
to `delete`, in the order of the calls. -/
def deleteSubtreeCells : Cells T → List Nat
  | .nil => []
  | .node a l _ r => deleteSubtreeCells l ++ deleteSubtreeCells r ++ [a]

/-! ## Functors and element type of `main.cpp` -/

/-- Functor `compare_int` (lines 8-19). -/
def compare_int (a b : Int) : Bool := decide (a < b)

/-- Functor `equal_int` (lines 24-35). -/
def equal_int (a b : Int) : Bool := decide (a = b)

/-- Class `Person` (lines 42-66). -/
structure Person where
  id : Int
  name : String
  deriving DecidableEq

/-- Functor `compare_person` (lines 71-82). -/
def compare_person (a b : Person) : Bool := decide (a.id < b.id)

/-- Functor `equal_person` (lines 87-98). -/
def equal_person (a b : Person) : Bool := decide (a.id = b.id)

/-- Functor `is_even` (lines 103-113). -/
def is_even (a : Int) : Bool := decide (a % 2 = 0)

/-! ## Vocabulary of the specification -/

/-- Ordering-equivalence: neither before nor after under `compare`. -/
def equiv (compare : T → T → Bool) (a b : T) : Bool :=
  !compare a b && !compare b a

/-- Strict weak ordering: irreflexive, transitive, with transitive incomparability. -/
structure StrictWeakOrder (compare : T → T → Bool) : Prop where
  irrefl : ∀ a, compare a a = false
  trans : ∀ a b c, compare a b = true → compare b c = true → compare a c = true
  equiv_trans : ∀ a b c, equiv compare a b = true → equiv compare b c = true →
    equiv compare a c = true

/-- Every value stored in the tree satisfies `p`. -/
def allValues (p : T → Bool) : Node T → Bool
  | .nil => true
  | .node l v r => p v && allValues p l && allValues p r

/-- BST order invariant: at every node, every value of the left subtree is before the node's
value and every value of the right subtree is after it. -/
def isBST (compare : T → T → Bool) : Node T → Bool
  | .nil => true
  | .node l v r =>
    allValues (fun y => compare y v) l && allValues (fun y => compare v y) r
      && isBST compare l && isBST compare r

/-- The addresses of the nodes in left subtree, node, right subtree order. -/
def inorderPos : Node T → List Pos
  | .nil => []
  | .node l _ r =>
    (inorderPos l).map (fun p => Dir.left :: p) ++ [] :: (inorderPos r).map (fun p => Dir.right :: p)

/-- In-order successor of the node at address `p`, by recursion on the tree: the leftmost node
of the right subtree when there is one, else the nearest ancestor entered through its left
link; `none` when there is no successor. -/
def succPos : Node T → Pos → Option Pos
  | .nil, _ => none
  | .node _ _ r, [] =>
    match r with
    | .nil => none
    | .node _ _ _ => some (Dir.right :: leftmostPos r)
  | .node l _ _, Dir.left :: p =>
    match succPos l p with
    | some q => some (Dir.left :: q)
    | none => some []
  | .node _ _ r, Dir.right :: p =>
    match succPos r p with
    | some q => some (Dir.right :: q)
    | none => none

/-- The nodes a search for `value` visits when no test stops it: from the root, left when
`value` is before the node's value, right otherwise. -/
def descent (compare : T → T → Bool) : Node T → T → List (Node T)
  | .nil, _ => []
  | .node l x r, value =>
    .node l x r :: (if compare value x then descent compare l value
      else descent compare r value)

/-- The node holds a value that `equals` accepts for `value`. -/
def matchesValue (equals : T → T → Bool) (value : T) : Node T → Bool
  | .nil => false
  | .node _ x _ => equals value x

/-- The sequence with only the first occurrence of each ordering-equivalence class kept: the
head stays and the later members of its class are dropped. -/
def firstOccurrences (compare : T → T → Bool) : List T → List T
  | [] => []
  | x :: xs => x :: (firstOccurrences compare xs).filter (fun y => !equiv compare x y)

/-- The tree with the subtree at address `p` replaced by `s`; unchanged when `p` leaves the
tree before its end. -/
def replaceAt : Node T → Pos → Node T → Node T
  | _, [], s => s
  | .nil, _ :: _, _ => .nil
  | .node l x r, Dir.left :: p, s => .node (replaceAt l p s) x r
  | .node l x r, Dir.right :: p, s => .node l x (replaceAt r p s)

/-- The tree with its leftmost node removed: that node is replaced by its right child. -/
def removeLeftmost : Node T → Node T
  | .nil => .nil
  | .node .nil _ r => r
  | .node (.node ll lv lr) v r => .node (removeLeftmost (.node ll lv lr)) v r

/-- Number of nodes on the longest path from the root down. -/
def height : Node T → Nat
  | .nil => 0
  | .node l _ r => 1 + max (height l) (height r)

end BinarySearchTree

/-! # Lemmas -/

namespace BinarySearchTree

variable {T : Type}

/-! ## Stored values and the order invariant -/

theorem allValues_iff (p : T → Bool) (t : Node T) :
    allValues p t = true ↔ ∀ x ∈ inorder t, p x = true := by
  induction t with
  | nil => simp [allValues, inorder]
  | node l v r ihl ihr =>
    simp only [allValues, inorder, Bool.and_eq_true, ihl, ihr, List.mem_append, List.mem_cons]
    constructor
    · rintro ⟨⟨hv, hl⟩, hr⟩ x (hx | rfl | hx)
      · exact hl x hx
      · exact hv
      · exact hr x hx
    · intro h
      exact ⟨⟨h v (Or.inr (Or.inl rfl)), fun x hx => h x (Or.inl hx)⟩,
        fun x hx => h x (Or.inr (Or.inr hx))⟩

theorem length_inorder (t : Node T) : (inorder t).length = size t := by
  induction t with
  | nil => rfl
  | node l v r ihl ihr =>
    simp only [size] at ihl ihr
    simp only [inorder, size, sizeNode, List.length_append, List.length_cons, ihl, ihr]
    omega

theorem equiv_symm (compare : T → T → Bool) (a b : T) :
    equiv compare a b = equiv compare b a := by
  simp [equiv, Bool.and_comm]

theorem equiv_refl {compare : T → T → Bool} (h : StrictWeakOrder compare) (a : T) :
    equiv compare a a = true := by
  simp [equiv, h.irrefl]

theorem not_equiv_of_lt {compare : T → T → Bool} {a b : T} (h : compare a b = true) :
    equiv compare a b = false := by
  simp [equiv, h]

theorem not_equiv_of_gt {compare : T → T → Bool} {a b : T} (h : compare b a = true) :
    equiv compare a b = false := by
  simp [equiv, h]

theorem StrictWeakOrder.asymm {compare : T → T → Bool} (h : StrictWeakOrder compare)
    {a b : T} (hab : compare a b = true) : compare b a = false := by
  cases hba : compare b a with
  | false => rfl
  | true =>
    have haa := h.trans a b a hab hba
    rw [h.irrefl] at haa
    exact haa.symm

/-- The invariant says the in-order sequence is increasing, pair by pair. -/
theorem pairwise_of_isBST {compare : T → T → Bool}
    (htrans : ∀ a b c, compare a b = true → compare b c = true → compare a c = true)
    (t : Node T) (h : isBST compare t = true) :
    (inorder t).Pairwise (fun a b => compare a b = true) := by
  induction t with
  | nil => simp [inorder]
  | node l v r ihl ihr =>
    simp only [isBST, Bool.and_eq_true, allValues_iff] at h
    obtain ⟨⟨⟨hl, hr⟩, hbl⟩, hbr⟩ := h
    simp only [inorder, List.pairwise_append, List.pairwise_cons, List.mem_cons]
    refine ⟨ihl hbl, ⟨hr, ihr hbr⟩, ?_⟩
    rintro a ha b (rfl | hb)
    · exact hl a ha
    · exact htrans a v b (hl a ha) (hr b hb)

theorem isBST_of_pairwise {compare : T → T → Bool} (t : Node T)
    (h : (inorder t).Pairwise (fun a b => compare a b = true)) : isBST compare t = true := by
  induction t with
  | nil => rfl
  | node l v r ihl ihr =>
    simp only [inorder, List.pairwise_append, List.pairwise_cons, List.mem_cons] at h
    obtain ⟨hpl, ⟨hr, hpr⟩, hlr⟩ := h
    simp only [isBST, Bool.and_eq_true, allValues_iff]
    exact ⟨⟨⟨fun a ha => hlr a ha v (Or.inl rfl), hr⟩, ihl hpl⟩, ihr hpr⟩

/-! ## insert -/

theorem mem_inorder_insert {compare : T → T → Bool} {t : Node T} {v x : T}
    (h : x ∈ inorder (insert compare t v)) : x ∈ inorder t ∨ x = v := by
  induction t with
  | nil => simpa [insert, inorder] using h
  | node l y r ihl ihr =>
    simp only [insert] at h
    split at h
    · simp only [inorder, List.mem_append, List.mem_cons] at h ⊢
      rcases h with h | h | h
      · rcases ihl h with h | h
        · exact Or.inl (Or.inl h)
        · exact Or.inr h
      · exact Or.inl (Or.inr (Or.inl h))
      · exact Or.inl (Or.inr (Or.inr h))
    · split at h
      · simp only [inorder, List.mem_append, List.mem_cons] at h ⊢
        rcases h with h | h | h
        · exact Or.inl (Or.inl h)
        · exact Or.inl (Or.inr (Or.inl h))
        · rcases ihr h with h | h
          · exact Or.inl (Or.inr (Or.inr h))
          · exact Or.inr h
      · exact Or.inl h

theorem mem_inorder_insert_of_mem {compare : T → T → Bool} {t : Node T} {x : T} (v : T)
    (h : x ∈ inorder t) : x ∈ inorder (insert compare t v) := by
  induction t with
  | nil => simp [inorder] at h
  | node l y r ihl ihr =>
    simp only [insert]
    simp only [inorder, List.mem_append, List.mem_cons] at h
    split
    · simp only [inorder, List.mem_append, List.mem_cons]
      rcases h with h | h | h
      · exact Or.inl (ihl h)
      · exact Or.inr (Or.inl h)
      · exact Or.inr (Or.inr h)
    · split
      · simp only [inorder, List.mem_append, List.mem_cons]
        rcases h with h | h | h
        · exact Or.inl h
        · exact Or.inr (Or.inl h)
        · exact Or.inr (Or.inr (ihr h))
      · simp only [inorder, List.mem_append, List.mem_cons]
        exact h

theorem isBST_insert (compare : T → T → Bool) (t : Node T) (v : T)
    (h : isBST compare t = true) : isBST compare (insert compare t v) = true := by
  induction t with
  | nil => simp [insert, isBST, allValues]
  | node l y r ihl ihr =>
    simp only [isBST, Bool.and_eq_true, allValues_iff] at h
    obtain ⟨⟨⟨hl, hr⟩, hbl⟩, hbr⟩ := h
    simp only [insert]
    split
    · rename_i hlt
      simp only [isBST, Bool.and_eq_true, allValues_iff]
      refine ⟨⟨⟨?_, hr⟩, ihl hbl⟩, hbr⟩
      intro x hx
      rcases mem_inorder_insert hx with hx | rfl
      · exact hl x hx
      · exact hlt
    · split
      · rename_i hgt
        simp only [isBST, Bool.and_eq_true, allValues_iff]
        refine ⟨⟨⟨hl, ?_⟩, hbl⟩, ihr hbr⟩
        intro x hx
        rcases mem_inorder_insert hx with hx | rfl
        · exact hr x hx
        · exact hgt
      · simp only [isBST, Bool.and_eq_true, allValues_iff]
        exact ⟨⟨⟨hl, hr⟩, hbl⟩, hbr⟩

theorem isBST_fromSequence_aux (compare : T → T → Bool) (xs : List T) (t : Node T)
    (h : isBST compare t = true) : isBST compare (xs.foldl (insert compare) t) = true := by
  induction xs generalizing t with
  | nil => exact h
  | cons x xs ih => exact ih _ (isBST_insert compare t x h)

/-- A value equivalent to a stored one is found by the descent of `insert`, which then leaves
the tree as it is. -/
theorem insert_eq_self_of_equiv {compare : T → T → Bool}
    (htrans : ∀ a b c, compare a b = true → compare b c = true → compare a c = true)
    (t : Node T) (v : T) (hbst : isBST compare t = true)
    (hv : ∃ x ∈ inorder t, equiv compare v x = true) : insert compare t v = t := by
  induction t with
  | nil => simp [inorder] at hv
  | node l y r ihl ihr =>
    simp only [isBST, Bool.and_eq_true, allValues_iff] at hbst
    obtain ⟨⟨⟨hl, hr⟩, hbl⟩, hbr⟩ := hbst
    obtain ⟨x, hx, hxv⟩ := hv
    simp only [inorder, List.mem_append, List.mem_cons] at hx
    simp only [insert]
    split
    · rename_i hlt
      rcases hx with hx | rfl | hx
      · rw [ihl hbl ⟨x, hx, hxv⟩]
      · rw [not_equiv_of_lt hlt] at hxv
        exact absurd hxv (by simp)
      · rw [not_equiv_of_lt (htrans v y x hlt (hr x hx))] at hxv
        exact absurd hxv (by simp)
    · split
      · rename_i hgt
        rcases hx with hx | rfl | hx
        · rw [not_equiv_of_gt (htrans x y v (hl x hx) hgt)] at hxv
          exact absurd hxv (by simp)
        · rw [not_equiv_of_gt hgt] at hxv
          exact absurd hxv (by simp)
        · rw [ihr hbr ⟨x, hx, hxv⟩]
      · rfl

/-- A value equivalent to no stored one is added as one new node. -/
theorem insert_fresh {compare : T → T → Bool} (t : Node T) (v : T)
    (hv : ∀ x ∈ inorder t, equiv compare v x = false) :
    size (insert compare t v) = size t + 1 ∧ v ∈ inorder (insert compare t v) := by
  induction t with
  | nil => simp [insert, size, sizeNode, inorder]
  | node l y r ihl ihr =>
    simp only [inorder, List.mem_append, List.mem_cons] at hv
    have hl := ihl (fun x hx => hv x (Or.inl hx))
    have hr := ihr (fun x hx => hv x (Or.inr (Or.inr hx)))
    have hy := hv y (Or.inr (Or.inl rfl))
    simp only [size] at hl hr ⊢
    simp only [insert]
    split
    · simp only [sizeNode, inorder, List.mem_append, List.mem_cons]
      exact ⟨by omega, Or.inl hl.2⟩
    · split
      · simp only [sizeNode, inorder, List.mem_append, List.mem_cons]
        exact ⟨by omega, Or.inr (Or.inr hr.2)⟩
      · rename_i h1 h2
        simp [equiv, h1, h2] at hy

/-! ## contains -/

/-- A stored value is found by `contains` when the tree is ordered and `equals` is reflexive. -/
theorem contains_of_mem {compare equals : T → T → Bool} (hswo : StrictWeakOrder compare)
    (hrefl : ∀ a, equals a a = true) (t : Node T) (v : T) (hbst : isBST compare t = true)
    (hv : v ∈ inorder t) : contains compare equals t v = true := by
  induction t with
  | nil => simp [inorder] at hv
  | node l y r ihl ihr =>
    simp only [isBST, Bool.and_eq_true, allValues_iff] at hbst
    obtain ⟨⟨⟨hl, hr⟩, hbl⟩, hbr⟩ := hbst
    simp only [inorder, List.mem_append, List.mem_cons] at hv
    simp only [contains]
    split
    · rfl
    · rename_i hne
      rcases hv with hv | rfl | hv
      · rw [if_pos (hl v hv)]
        exact ihl hbl hv
      · exact absurd (hrefl v) hne
      · have hnot : ¬ compare v y = true := by
          rw [hswo.asymm (hr v hv)]
          simp
        rw [if_neg hnot]
        exact ihr hbr hv

/-- `contains` answers true only at a stored value that `equals` accepts. -/
theorem exists_of_contains {compare equals : T → T → Bool} (t : Node T) (v : T)
    (h : contains compare equals t v = true) : ∃ x ∈ inorder t, equals v x = true := by
  induction t with
  | nil => simp [contains] at h
  | node l y r ihl ihr =>
    simp only [contains] at h
    simp only [inorder, List.mem_append, List.mem_cons]
    split at h
    · rename_i heq
      exact ⟨y, Or.inr (Or.inl rfl), heq⟩
    · split at h
      · obtain ⟨x, hx, hxe⟩ := ihl h
        exact ⟨x, Or.inl hx, hxe⟩
      · obtain ⟨x, hx, hxe⟩ := ihr h
        exact ⟨x, Or.inr (Or.inr hx), hxe⟩

/-! ## Construction by repeated insertion -/

theorem fromSequence_distinct_aux {compare : T → T → Bool} (xs : List T) (t : Node T)
    (hxs : xs.Pairwise (fun a b => equiv compare a b = false))
    (ht : ∀ x ∈ xs, ∀ y ∈ inorder t, equiv compare x y = false) :
    size (xs.foldl (insert compare) t) = size t + xs.length ∧
      (∀ y ∈ inorder t, y ∈ inorder (xs.foldl (insert compare) t)) ∧
      ∀ x ∈ xs, x ∈ inorder (xs.foldl (insert compare) t) := by
  induction xs generalizing t with
  | nil => simp
  | cons x xs ih =>
    rw [List.pairwise_cons] at hxs
    obtain ⟨hx, hxs⟩ := hxs
    have hfresh := @insert_fresh T compare t x
      (fun y hy => ht x (List.mem_cons_self x xs) y hy)
    have hnext : ∀ z ∈ xs, ∀ y ∈ inorder (insert compare t x), equiv compare z y = false := by
      intro z hz y hy
      rcases mem_inorder_insert hy with hy | rfl
      · exact ht z (List.mem_cons_of_mem x hz) y hy
      · rw [equiv_symm]
        exact hx z hz
    obtain ⟨hsize, hold, hnew⟩ := ih (insert compare t x) hxs hnext
    simp only [List.foldl_cons, List.length_cons, List.mem_cons]
    refine ⟨by omega, fun y hy => hold y (mem_inorder_insert_of_mem x hy), ?_⟩
    rintro z (rfl | hz)
    · exact hold z hfresh.2
    · exact hnew z hz

/-! ## deleteNode -/

/-- The value the successor loop of `deleteNode` ends on is the first of the in-order sequence. -/
theorem inorder_head_leftmostValue (l : Node T) (v : T) (r : Node T) :
    ∃ rest, inorder (.node l v r) = leftmostValue l v :: rest := by
  induction l generalizing v r with
  | nil => exact ⟨inorder r, by simp [inorder, leftmostValue]⟩
  | node ll lv lr ihl _ =>
    obtain ⟨rest, hrest⟩ := ihl lv lr
    refine ⟨rest ++ v :: inorder r, ?_⟩
    simp only [leftmostValue]
    rw [inorder, hrest]
    simp

/-- Nothing equivalent to `value` is stored: `deleteNode` walks to a null link and changes
nothing. -/
theorem deleteNode_eq_self_of_absent {compare : T → T → Bool} (t : Node T) (v : T)
    (hv : ∀ x ∈ inorder t, equiv compare x v = false) : deleteNode compare t v = t := by
  induction t with
  | nil => rfl
  | node l y r ihl ihr =>
    simp only [inorder, List.mem_append, List.mem_cons] at hv
    have hy := hv y (Or.inr (Or.inl rfl))
    simp only [deleteNode]
    split
    · rw [ihl (fun x hx => hv x (Or.inl hx))]
    · split
      · rw [ihr (fun x hx => hv x (Or.inr (Or.inr hx)))]
      · rename_i h1 h2
        simp [equiv, h1, h2] at hy

theorem filter_not_equiv_eq_self {compare : T → T → Bool} (v : T) (xs : List T)
    (h : ∀ x ∈ xs, equiv compare x v = false) :
    xs.filter (fun x => !equiv compare x v) = xs := by
  rw [List.filter_eq_self]
  intro x hx
  simp [h x hx]

/-- In an ordered tree `deleteNode` deletes from the in-order sequence the values equivalent
to `value` and nothing else. -/
theorem inorder_deleteNode {compare : T → T → Bool} (hswo : StrictWeakOrder compare)
    (t : Node T) (v : T) (hbst : isBST compare t = true) :
    inorder (deleteNode compare t v) = (inorder t).filter (fun x => !equiv compare x v) := by
  induction t generalizing v with
  | nil => rfl
  | node l y r ihl ihr =>
    have hsorted_r : isBST compare r = true := by
      simp only [isBST, Bool.and_eq_true] at hbst
      exact hbst.2
    simp only [isBST, Bool.and_eq_true, allValues_iff] at hbst
    obtain ⟨⟨⟨hl, hr⟩, hbl⟩, hbr⟩ := hbst
    simp only [deleteNode]
    split
    · rename_i hlt
      have hyv : equiv compare y v = false := not_equiv_of_gt hlt
      have hrv : ∀ x ∈ inorder r, equiv compare x v = false :=
        fun x hx => not_equiv_of_gt (hswo.trans v y x hlt (hr x hx))
      simp only [inorder, List.filter_append, List.filter_cons, hyv, ihl v hbl,
        filter_not_equiv_eq_self v _ hrv]
      simp
    · split
      · rename_i hgt
        have hyv : equiv compare y v = false := not_equiv_of_lt hgt
        have hlv : ∀ x ∈ inorder l, equiv compare x v = false :=
          fun x hx => not_equiv_of_lt (hswo.trans x y v (hl x hx) hgt)
        simp only [inorder, List.filter_append, List.filter_cons, hyv, ihr v hbr,
          filter_not_equiv_eq_self v _ hlv]
        simp
      · rename_i h1 h2
        have hyv : equiv compare y v = true := by simp [equiv, h1, h2]
        have hvy : equiv compare v y = true := by rw [equiv_symm]; exact hyv
        have hlv : ∀ x ∈ inorder l, equiv compare x v = false := by
          intro x hx
          cases hxv : equiv compare x v with
          | false => rfl
          | true =>
            have hxy := hswo.equiv_trans x v y hxv hvy
            rw [not_equiv_of_lt (hl x hx)] at hxy
            exact hxy.symm
        have hrv : ∀ x ∈ inorder r, equiv compare x v = false := by
          intro x hx
          cases hxv : equiv compare x v with
          | false => rfl
          | true =>
            have hxy := hswo.equiv_trans x v y hxv hvy
            rw [not_equiv_of_gt (hr x hx)] at hxy
            exact hxy.symm
        have hfilter : (inorder (.node l y r)).filter (fun x => !equiv compare x v)
            = inorder l ++ inorder r := by
          simp only [inorder, List.filter_append, List.filter_cons, hyv,
            filter_not_equiv_eq_self v _ hlv, filter_not_equiv_eq_self v _ hrv]
          simp
        rw [hfilter]
        cases l with
        | nil => simp [inorder]
        | node ll lx lr =>
          cases r with
          | nil => simp [inorder]
          | node rl rv rr =>
            simp only []
            obtain ⟨rest, hrest⟩ := inorder_head_leftmostValue rl rv rr
            have hpw := pairwise_of_isBST hswo.trans _ hsorted_r
            rw [hrest, List.pairwise_cons] at hpw
            have hm : ∀ x ∈ rest, equiv compare x (leftmostValue rl rv) = false :=
              fun x hx => not_equiv_of_gt (hpw.1 x hx)
            rw [inorder, ihr (leftmostValue rl rv) hbr, hrest, List.filter_cons,
              equiv_refl hswo, filter_not_equiv_eq_self _ _ hm]
            simp

/-- The number of values the deletion filter drops from an increasing sequence that holds a
value equivalent to `v` is one. -/
theorem length_filter_not_equiv {compare : T → T → Bool} (hswo : StrictWeakOrder compare)
    (v : T) (xs : List T) (hpw : xs.Pairwise (fun a b => compare a b = true))
    (hv : ∃ x ∈ xs, equiv compare x v = true) :
    (xs.filter (fun x => !equiv compare x v)).length + 1 = xs.length := by
  induction xs with
  | nil => simp at hv
  | cons y ys ih =>
    rw [List.pairwise_cons] at hpw
    obtain ⟨hy, hpw⟩ := hpw
    cases hyv : equiv compare y v with
    | true =>
      have hrest : ∀ x ∈ ys, equiv compare x v = false := by
        intro x hx
        cases hxv : equiv compare x v with
        | false => rfl
        | true =>
          have hvx : equiv compare v x = true := by rw [equiv_symm]; exact hxv
          have hyx := hswo.equiv_trans y v x hyv hvx
          rw [not_equiv_of_lt (hy x hx)] at hyx
          exact hyx.symm
      simp [List.filter_cons, hyv, filter_not_equiv_eq_self v ys hrest]
    | false =>
      obtain ⟨x, hx, hxv⟩ := hv
      rcases List.mem_cons.mp hx with rfl | hx
      · rw [hyv] at hxv
        exact absurd hxv (by simp)
      · have := ih hpw ⟨x, hx, hxv⟩
        simp [List.filter_cons, hyv]
        omega

theorem remove_eq_deleteNode (compare : T → T → Bool) (t : Node T) (v : T) :
    remove compare t v = deleteNode compare t v := by
  cases t <;> rfl

theorem isBST_deleteNode {compare : T → T → Bool} (hswo : StrictWeakOrder compare)
    (t : Node T) (v : T) (hbst : isBST compare t = true) :
    isBST compare (deleteNode compare t v) = true := by
  apply isBST_of_pairwise
  rw [inorder_deleteNode hswo t v hbst]
  exact (pairwise_of_isBST hswo.trans t hbst).filter _

/-- Nothing equivalent to `value` is stored and `equals` implies equivalence: `contains` is
false. -/
theorem contains_eq_false_of_absent {compare equals : T → T → Bool}
    (heq : ∀ a b, equals a b = true → equiv compare a b = true) (t : Node T) (v : T)
    (hv : ∀ x ∈ inorder t, equiv compare x v = false) : contains compare equals t v = false := by
  cases h : contains compare equals t v with
  | false => rfl
  | true =>
    obtain ⟨x, hx, hxe⟩ := exists_of_contains t v h
    have h1 := heq v x hxe
    rw [equiv_symm, hv x hx] at h1
    exact h1.symm

/-! ## Addresses -/

theorem nodeAt_nil (p : Pos) : nodeAt (Node.nil : Node T) p = .nil := by
  cases p <;> rfl

theorem length_inorderPos (t : Node T) : (inorderPos t).length = size t := by
  induction t with
  | nil => rfl
  | node l v r ihl ihr =>
    simp only [size] at ihl ihr
    simp only [inorderPos, size, sizeNode, List.length_append, List.length_cons,
      List.length_map, ihl, ihr]
    omega

/-- The first address of the in-order sequence is where `begin()` stops. -/
theorem head_inorderPos (l : Node T) (v : T) (r : Node T) :
    (inorderPos (.node l v r))[0]? = some (leftmostPos (.node l v r)) := by
  induction l generalizing v r with
  | nil => simp [inorderPos, leftmostPos]
  | node ll lv lr ihl _ =>
    have h := ihl lv lr
    have hlen : 0 < ((inorderPos (.node ll lv lr)).map (fun p => Dir.left :: p)).length := by
      rw [List.length_map, length_inorderPos]
      simp [size, sizeNode]
    rw [inorderPos, List.getElem?_append_left hlen, List.getElem?_map, h]
    simp [leftmostPos]

theorem begin_n (t : Node T) : (begin t).n = (inorderPos t)[0]? := by
  cases t with
  | nil => rfl
  | node l v r => rw [head_inorderPos]; rfl

theorem begin_eq (t : Node T) : begin t = { n := (inorderPos t)[0]?, root := t } := by
  rw [← begin_n]
  cases t <;> rfl

/-- The address after the `i`-th of the in-order sequence is its in-order successor. -/
theorem getElem_succ_inorderPos (t : Node T) (i : Nat) (p : Pos)
    (h : (inorderPos t)[i]? = some p) : (inorderPos t)[i + 1]? = succPos t p := by
  induction t generalizing i p with
  | nil => simp [inorderPos] at h
  | node l v r ihl ihr =>
    have hlen : ((inorderPos l).map (fun p => Dir.left :: p)).length = size l := by
      rw [List.length_map, length_inorderPos]
    rw [inorderPos] at h ⊢
    rcases Nat.lt_trichotomy i (size l) with hi | hi | hi
    · rw [List.getElem?_append_left (by omega), List.getElem?_map] at h
      cases hq : (inorderPos l)[i]? with
      | none => rw [hq] at h; simp at h
      | some q =>
        rw [hq] at h
        simp only [Option.map_some', Option.some.injEq] at h
        subst h
        have ih := ihl i q hq
        simp only [succPos]
        rw [← ih]
        by_cases hi2 : i + 1 < size l
        · rw [List.getElem?_append_left (by omega), List.getElem?_map]
          cases hq2 : (inorderPos l)[i + 1]? with
          | none =>
            have := List.getElem?_eq_none_iff.mp hq2
            rw [length_inorderPos] at this
            omega
          | some q2 => rfl
        · have hi3 : i + 1 = size l := by omega
          rw [List.getElem?_append_right (by omega), hlen, hi3]
          have hnone : (inorderPos l)[size l]? = none := by
            rw [List.getElem?_eq_none_iff, length_inorderPos]
          rw [hnone]
          simp
    · subst hi
      rw [List.getElem?_append_right (by omega), hlen] at h
      simp only [Nat.sub_self, List.getElem?_cons_zero, Option.some.injEq] at h
      subst h
      rw [List.getElem?_append_right (by omega), hlen]
      have h1 : size l + 1 - size l = 1 := by omega
      rw [h1]
      simp only [List.getElem?_cons_succ, List.getElem?_map]
      cases r with
      | nil => simp [inorderPos, succPos]
      | node rl rv rr =>
        rw [head_inorderPos]
        simp [succPos]
    · rw [List.getElem?_append_right (by omega), hlen] at h
      obtain ⟨j, hj⟩ : ∃ j, i - size l = j + 1 := ⟨i - size l - 1, by omega⟩
      rw [hj] at h
      simp only [List.getElem?_cons_succ, List.getElem?_map] at h
      cases hq : (inorderPos r)[j]? with
      | none => rw [hq] at h; simp at h
      | some q =>
        rw [hq] at h
        simp only [Option.map_some', Option.some.injEq] at h
        subst h
        have ih := ihr j q hq
        rw [List.getElem?_append_right (by omega), hlen]
        have h2 : i + 1 - size l = (j + 1) + 1 := by omega
        rw [h2]
        simp only [List.getElem?_cons_succ, List.getElem?_map, succPos]
        rw [ih]
        cases succPos r q <;> rfl

/-- The in-order address sequence lists exactly the addresses of the nodes of the tree. -/
theorem mem_inorderPos_iff (t : Node T) (p : Pos) :
    p ∈ inorderPos t ↔ nodeAt t p ≠ .nil := by
  induction t generalizing p with
  | nil => simp [inorderPos, nodeAt_nil]
  | node l v r ihl ihr =>
    cases p with
    | nil => simp [inorderPos, nodeAt]
    | cons d p =>
      cases d with
      | left => simp [inorderPos, nodeAt, ihl]
      | right => simp [inorderPos, nodeAt, ihr]

theorem nodup_inorderPos (t : Node T) : (inorderPos t).Nodup := by
  induction t with
  | nil => simp [inorderPos]
  | node l v r ihl ihr =>
    rw [inorderPos, List.nodup_append]
    refine ⟨ihl.map (fun a b h => by simpa using h), ?_, ?_⟩
    · rw [List.nodup_cons]
      exact ⟨by simp, ihr.map (fun a b h => by simpa using h)⟩
    · intro a ha hb
      simp only [List.mem_map, List.mem_cons] at ha hb
      obtain ⟨q, _, rfl⟩ := ha
      rcases hb with hb | ⟨q2, _, hb⟩
      · simp at hb
      · simp at hb

/-- The values read at the in-order addresses are the in-order values. -/
theorem map_valueAt_inorderPos (t : Node T) :
    (inorderPos t).map (valueAt t) = (inorder t).map some := by
  induction t with
  | nil => rfl
  | node l v r ihl ihr =>
    simp only [inorderPos, inorder, List.map_append, List.map_cons, List.map_map]
    rw [← ihl, ← ihr]
    rfl

theorem mem_inorder_of_nodeAt {t : Node T} {p : Pos} {l r : Node T} {v : T}
    (h : nodeAt t p = .node l v r) : v ∈ inorder t := by
  induction t generalizing p with
  | nil => rw [nodeAt_nil] at h; simp at h
  | node tl tv tr ihl ihr =>
    simp only [inorder, List.mem_append, List.mem_cons]
    cases p with
    | nil =>
      simp only [nodeAt, Node.node.injEq] at h
      exact Or.inr (Or.inl h.2.1.symm)
    | cons d p =>
      cases d with
      | left => exact Or.inl (ihl h)
      | right => exact Or.inr (Or.inr (ihr h))

/-! ## The cursor -/

/-- With a right child, the successor is the leftmost node of the right subtree. -/
theorem succPos_of_right {t : Node T} {p : Pos} {l rl rr : Node T} {v rv : T}
    (h : nodeAt t p = .node l v (.node rl rv rr)) :
    succPos t p = some (p ++ Dir.right :: leftmostPos (.node rl rv rr)) := by
  induction t generalizing p with
  | nil => rw [nodeAt_nil] at h; simp at h
  | node tl tv tr ihl ihr =>
    cases p with
    | nil =>
      simp only [nodeAt, Node.node.injEq] at h
      obtain ⟨_, _, rfl⟩ := h
      simp [succPos]
    | cons d p =>
      cases d with
      | left =>
        simp only [nodeAt] at h
        simp [succPos, ihl h]
      | right =>
        simp only [nodeAt] at h
        simp [succPos, ihr h]

/-- Without a right child, the successor is the ancestor `q` with `p` in its left subtree
and only right links below that: the lowest ancestor whose left subtree holds `p`. -/
theorem succPos_of_no_right {t : Node T} {p : Pos} {l : Node T} {v : T}
    (h : nodeAt t p = .node l v .nil) :
    match succPos t p with
    | some q => ∃ k, p = q ++ Dir.left :: List.replicate k Dir.right
    | none => ∃ k, p = List.replicate k Dir.right := by
  induction t generalizing p with
  | nil => rw [nodeAt_nil] at h; simp at h
  | node tl tv tr ihl ihr =>
    cases p with
    | nil =>
      simp only [nodeAt, Node.node.injEq] at h
      obtain ⟨_, _, rfl⟩ := h
      exact ⟨0, rfl⟩
    | cons d p =>
      cases d with
      | left =>
        simp only [nodeAt] at h
        have ih := ihl h
        simp only [succPos]
        cases hs : succPos tl p with
        | none =>
          rw [hs] at ih
          obtain ⟨k, hk⟩ := ih
          exact ⟨k, by simp [hk]⟩
        | some q =>
          rw [hs] at ih
          obtain ⟨k, hk⟩ := ih
          exact ⟨k, by simp [hk]⟩
      | right =>
        simp only [nodeAt] at h
        have ih := ihr h
        simp only [succPos]
        cases hs : succPos tr p with
        | none =>
          rw [hs] at ih
          obtain ⟨k, hk⟩ := ih
          exact ⟨k + 1, by simp [hk, List.replicate_succ]⟩
        | some q =>
          rw [hs] at ih
          obtain ⟨k, hk⟩ := ih
          exact ⟨k, by simp [hk]⟩

/-- In an ordered tree the re-descent of `operator++` reaches the cursor's node and leaves in
`parent` its in-order successor. -/
theorem redescend_eq {compare : T → T → Bool} (hswo : StrictWeakOrder compare) (nv : T)
    (s : Node T) (q cur : Pos) (parent : Option Pos) (l : Node T)
    (hbst : isBST compare s = true) (hq : nodeAt s q = .node l nv .nil) :
    redescend compare nv (cur ++ q) s cur parent =
      some (match succPos s q with
        | some q2 => some (cur ++ q2)
        | none => parent) := by
  induction s generalizing q cur parent with
  | nil => rw [nodeAt_nil] at hq; simp at hq
  | node sl x sr ihl ihr =>
    simp only [isBST, Bool.and_eq_true, allValues_iff] at hbst
    obtain ⟨⟨⟨hl, hr⟩, hbl⟩, hbr⟩ := hbst
    cases q with
    | nil =>
      simp only [nodeAt, Node.node.injEq] at hq
      obtain ⟨_, _, rfl⟩ := hq
      simp [redescend, succPos]
    | cons d q =>
      have hne : ¬ cur = cur ++ d :: q := by simp
      cases d with
      | left =>
        simp only [nodeAt] at hq
        have hlt := hl nv (mem_inorder_of_nodeAt hq)
        have ih := ihl q (cur ++ [Dir.left]) (some cur) hbl hq
        rw [List.append_assoc, List.singleton_append] at ih
        rw [redescend, if_neg hne, if_pos hlt, ih]
        simp only [succPos]
        cases succPos sl q <;> simp
      | right =>
        simp only [nodeAt] at hq
        have hgt := hr nv (mem_inorder_of_nodeAt hq)
        have hnlt : ¬ compare nv x = true := by
          rw [hswo.asymm hgt]
          simp
        have ih := ihr q (cur ++ [Dir.right]) parent hbr hq
        rw [List.append_assoc, List.singleton_append] at ih
        rw [redescend, if_neg hne, if_neg hnlt, ih]
        simp only [succPos]
        cases succPos sr q <;> simp

/-- In an ordered tree `operator++` moves a cursor on a node to the in-order successor. -/
theorem preIncrement_eq {compare : T → T → Bool} (hswo : StrictWeakOrder compare)
    (t : Node T) (hbst : isBST compare t = true) (p : Pos) (hp : p ∈ inorderPos t) :
    preIncrement compare { n := some p, root := t } = some { n := succPos t p, root := t } := by
  rw [mem_inorderPos_iff] at hp
  cases hn : nodeAt t p with
  | nil => exact absurd hn hp
  | node l v r =>
    cases r with
    | nil =>
      have h := redescend_eq hswo v t p [] none l hbst hn
      simp only [List.nil_append] at h
      simp only [preIncrement, hn, h]
      cases succPos t p <;> rfl
    | node rl rv rr =>
      simp only [preIncrement, hn, succPos_of_right hn]

theorem advance_eq {compare : T → T → Bool} (hswo : StrictWeakOrder compare)
    (t : Node T) (hbst : isBST compare t = true) (k i : Nat) :
    advance compare k { n := (inorderPos t)[i]?, root := t } =
      some { n := (inorderPos t)[i + k]?, root := t } := by
  induction k generalizing i with
  | zero => rfl
  | succ k ih =>
    have hik : i + (k + 1) = (i + 1) + k := by omega
    rw [hik, ← ih (i + 1)]
    cases h : (inorderPos t)[i]? with
    | none =>
      have h1 : (inorderPos t)[i + 1]? = none := by
        rw [List.getElem?_eq_none_iff] at h ⊢
        omega
      rw [h1]
      simp [advance, preIncrement]
    | some p =>
      rw [getElem_succ_inorderPos t i p h]
      simp only [advance, preIncrement_eq hswo t hbst p (List.getElem?_mem h)]

theorem walk_eq {compare : T → T → Bool} (hswo : StrictWeakOrder compare)
    (t : Node T) (hbst : isBST compare t = true) (fuel i : Nat) (hfuel : size t ≤ i + fuel) :
    walk compare fuel { n := (inorderPos t)[i]?, root := t } = some ((inorder t).drop i) := by
  induction fuel generalizing i with
  | zero =>
    have h : (inorderPos t)[i]? = none := by
      rw [List.getElem?_eq_none_iff, length_inorderPos]
      omega
    have hd : (inorder t).drop i = [] := by
      rw [List.drop_eq_nil_iff, length_inorder]
      omega
    rw [h, hd]
    simp [walk, iterEq, endIter]
  | succ fuel ih =>
    cases h : (inorderPos t)[i]? with
    | none =>
      have hd : (inorder t).drop i = [] := by
        rw [List.getElem?_eq_none_iff, length_inorderPos] at h
        rw [List.drop_eq_nil_iff, length_inorder]
        exact h
      rw [hd]
      simp [walk, iterEq, endIter]
    | some p =>
      have hi : i < (inorder t).length := by
        have := (List.getElem?_eq_some_iff.mp h).1
        rw [length_inorderPos] at this
        rw [length_inorder]
        exact this
      have hval : valueAt t p = some ((inorder t)[i]) := by
        have hm := congrArg (fun xs => xs[i]?) (map_valueAt_inorderPos t)
        simp only [List.getElem?_map, h, Option.map_some',
          List.getElem?_eq_getElem hi] at hm
        exact Option.some.inj hm
      have hnext := ih (i + 1) (by omega)
      rw [List.drop_eq_getElem_cons hi]
      rw [walk]
      simp only [iterEq, endIter, deref, hval,
        preIncrement_eq hswo t hbst p (List.getElem?_mem h),
        ← getElem_succ_inorderPos t i p h, hnext]
      simp

theorem isBST_applyOps {compare : T → T → Bool} (hswo : StrictWeakOrder compare)
    (ops : List (Op T)) (t : Node T) (hbst : isBST compare t = true) :
    isBST compare (applyOps compare t ops) = true := by
  induction ops generalizing t with
  | nil => exact hbst
  | cons op ops ih =>
    simp only [applyOps, List.foldl_cons]
    apply ih
    cases op with
    | insert v => exact isBST_insert compare t v hbst
    | remove v =>
      simp only [applyOp, remove_eq_deleteNode]
      exact isBST_deleteNode hswo t v hbst

theorem join_append (a b : List String) :
    String.join (a ++ b) = String.join a ++ String.join b := by
  apply String.ext
  simp [String.join_eq, String.data_append]

theorem join_cons (a : String) (b : List String) :
    String.join (a :: b) = a ++ String.join b := by
  apply String.ext
  simp [String.join_eq, String.data_append]

/-- The text `toString` appends is the in-order values, each rendered and followed by a space. -/
theorem toString_eq (render : T → String) (os : String) (t : Node T) :
    toString render os t = os ++ String.join ((inorder t).map (fun v => render v ++ " ")) := by
  induction t generalizing os with
  | nil => simp [toString, inorder, String.join]
  | node l v r ihl ihr =>
    rw [toString, ihr, ihl]
    simp [inorder, join_append, join_cons, String.append_assoc]

/-- A value with a stored equivalent is found by `contains` when the tree is ordered and
`equals` is ordering-equivalence. -/
theorem contains_of_equiv {compare equals : T → T → Bool}
    (htrans : ∀ a b c, compare a b = true → compare b c = true → compare a c = true)
    (heq : ∀ a b, equals a b = equiv compare a b) (t : Node T) (v : T)
    (hbst : isBST compare t = true) (hv : ∃ x ∈ inorder t, equiv compare x v = true) :
    contains compare equals t v = true := by
  induction t with
  | nil => simp [inorder] at hv
  | node l y r ihl ihr =>
    simp only [isBST, Bool.and_eq_true, allValues_iff] at hbst
    obtain ⟨⟨⟨hl, hr⟩, hbl⟩, hbr⟩ := hbst
    obtain ⟨x, hx, hxv⟩ := hv
    simp only [inorder, List.mem_append, List.mem_cons] at hx
    simp only [contains]
    split
    · rfl
    · rename_i hne
      rw [heq] at hne
      split
      · rename_i hlt
        rcases hx with hx | rfl | hx
        · exact ihl hbl ⟨x, hx, hxv⟩
        · rw [equiv_symm] at hxv
          exact absurd hxv hne
        · rw [not_equiv_of_gt (htrans v y x hlt (hr x hx))] at hxv
          exact absurd hxv (by simp)
      · rename_i hnlt
        have hgt : compare y v = true := by
          cases h : compare y v with
          | true => rfl
          | false => exact absurd (by simp [equiv, h, hnlt]) hne
        rcases hx with hx | rfl | hx
        · rw [not_equiv_of_lt (htrans x y v (hl x hx) hgt)] at hxv
          exact absurd hxv (by simp)
        · rw [equiv_symm] at hxv
          exact absurd hxv hne
        · exact ihr hbr ⟨x, hx, hxv⟩

/-- On an increasing sequence, dropping every value equivalent to `v` drops the first such
value and nothing else. -/
theorem filter_not_equiv_eq_eraseP {compare : T → T → Bool} (hswo : StrictWeakOrder compare)
    (v : T) (xs : List T) (hpw : xs.Pairwise (fun a b => compare a b = true)) :
    xs.filter (fun x => !equiv compare x v) = xs.eraseP (fun x => equiv compare x v) := by
  induction xs with
  | nil => rfl
  | cons y ys ih =>
    rw [List.pairwise_cons] at hpw
    obtain ⟨hy, hpw⟩ := hpw
    cases hyv : equiv compare y v with
    | true =>
      have hrest : ∀ x ∈ ys, equiv compare x v = false := by
        intro x hx
        cases hxv : equiv compare x v with
        | false => rfl
        | true =>
          have hvx : equiv compare v x = true := by rw [equiv_symm]; exact hxv
          have hyx := hswo.equiv_trans y v x hyv hvx
          rw [not_equiv_of_lt (hy x hx)] at hyx
          exact hyx.symm
      simp [List.filter_cons, List.eraseP_cons, hyv, filter_not_equiv_eq_self v ys hrest]
    | false =>
      simp [List.filter_cons, List.eraseP_cons, hyv, ih hpw]

/-! ## The functors of `main.cpp` are strict weak orderings -/

theorem equiv_compare_int (a b : Int) : equiv compare_int a b = true ↔ a = b := by
  simp only [equiv, compare_int, Bool.and_eq_true, Bool.not_eq_true', decide_eq_false_iff_not]
  omega

theorem strictWeakOrder_compare_int : StrictWeakOrder compare_int where
  irrefl := by intro a; simp [compare_int]
  trans := by
    intro a b c hab hbc
    simp only [compare_int, decide_eq_true_eq] at *
    omega
  equiv_trans := by
    intro a b c hab hbc
    rw [equiv_compare_int] at *
    omega

theorem equiv_compare_person (a b : Person) :
    equiv compare_person a b = true ↔ a.id = b.id := by
  simp only [equiv, compare_person, Bool.and_eq_true, Bool.not_eq_true',
    decide_eq_false_iff_not]
  omega

theorem strictWeakOrder_compare_person : StrictWeakOrder compare_person where
  irrefl := by intro a; simp [compare_person]
  trans := by
    intro a b c hab hbc
    simp only [compare_person, decide_eq_true_eq] at *
    omega
  equiv_trans := by
    intro a b c hab hbc
    rw [equiv_compare_person] at *
    omega

theorem equal_person_eq_equiv (a b : Person) :
    equal_person a b = equiv compare_person a b := by
  cases h : equiv compare_person a b with
  | true =>
    rw [equiv_compare_person] at h
    simp [equal_person, h]
  | false =>
    have hne : ¬ a.id = b.id := by
      intro hab
      rw [← equiv_compare_person, h] at hab
      exact absurd hab (by simp)
    simp [equal_person, hne]

/-! ## begin -/

/-- The node `begin()` stops on has no left child and holds the leftmost value. -/
theorem nodeAt_leftmostPos (l : Node T) (v : T) (r : Node T) :
    ∃ r2, nodeAt (.node l v r) (leftmostPos (.node l v r)) = .node .nil (leftmostValue l v) r2 := by
  induction l generalizing v r with
  | nil => exact ⟨r, rfl⟩
  | node ll lv lr ihl _ =>
    obtain ⟨r2, h⟩ := ihl lv lr
    exact ⟨r2, by simpa [leftmostPos, nodeAt, leftmostValue] using h⟩

/-- The address `begin()` stops on is reached through left links only. -/
theorem leftmostPos_eq_replicate (t : Node T) :
    ∃ k, leftmostPos t = List.replicate k Dir.left := by
  induction t with
  | nil => exact ⟨0, rfl⟩
  | node l v r ihl _ =>
    cases l with
    | nil => exact ⟨0, rfl⟩
    | node ll lv lr =>
      obtain ⟨k, hk⟩ := ihl
      exact ⟨k + 1, by simp [leftmostPos, hk, List.replicate_succ]⟩

/-- In an ordered tree no stored value is before the leftmost one. -/
theorem leftmostValue_minimal {compare : T → T → Bool} (hswo : StrictWeakOrder compare)
    (l : Node T) (v : T) (r : Node T) (hbst : isBST compare (.node l v r) = true) :
    ∀ x ∈ inorder (.node l v r), compare x (leftmostValue l v) = false := by
  obtain ⟨rest, hrest⟩ := inorder_head_leftmostValue l v r
  have hpw := pairwise_of_isBST hswo.trans _ hbst
  rw [hrest, List.pairwise_cons] at hpw
  intro x hx
  rw [hrest] at hx
  rcases List.mem_cons.mp hx with rfl | hx
  · exact hswo.irrefl _
  · exact hswo.asymm (hpw.1 x hx)

/-! ## Copies -/

theorem copyNodes_eq (t : Node T) : copyNodes t = t := by
  induction t with
  | nil => rfl
  | node l v r ihl ihr => rw [copyNodes, ihl, ihr]

theorem copyConstruct_eq (t : Node T) : copyConstruct t = t := by
  cases t with
  | nil => rfl
  | node l v r => exact copyNodes_eq _

/-- With room for every node the bounded copy is the copy. -/
theorem copyNodesAlloc_of_le (t : Node T) (budget : Nat) (h : size t ≤ budget) :
    copyNodesAlloc t budget = some (copyNodes t, budget - size t) := by
  induction t generalizing budget with
  | nil => rfl
  | node l v r ihl ihr =>
    simp only [size, sizeNode] at h ihl ihr ⊢
    obtain ⟨b, rfl⟩ : ∃ b, budget = b + 1 := ⟨budget - 1, by omega⟩
    rw [copyNodesAlloc, ihl b (by omega)]
    simp only []
    rw [ihr (b - sizeNode l) (by omega)]
    simp only [copyNodes, Option.some.injEq, Prod.mk.injEq, true_and]
    omega

/-- Without room for every node the bounded copy throws. -/
theorem copyNodesAlloc_of_lt (t : Node T) (budget : Nat) (h : budget < size t) :
    copyNodesAlloc t budget = none := by
  induction t generalizing budget with
  | nil => simp [size, sizeNode] at h
  | node l v r ihl ihr =>
    simp only [size, sizeNode] at h ihl ihr
    cases budget with
    | zero => rfl
    | succ b =>
      rw [copyNodesAlloc]
      by_cases hl : sizeNode l ≤ b
      · rw [copyNodesAlloc_of_le l b hl]
        simp only []
        rw [ihr (b - size l) (by simp only [size]; omega)]
      · rw [ihl b (by omega)]

/-- When the copy of the source throws inside `operator=`, `*this` ends up empty. -/
theorem operatorAssignAlloc_of_lt (self bst : Node T) (budget : Nat) (h : budget < size bst) :
    operatorAssignAlloc self bst budget = (.nil, true) := by
  cases bst with
  | nil => simp [size, sizeNode] at h
  | node l v r =>
    simp only [operatorAssignAlloc, copyConstructAlloc, copyNodesAlloc_of_lt _ budget h, clear]

theorem operatorAssignAlloc_of_le (self bst : Node T) (budget : Nat) (h : size bst ≤ budget) :
    operatorAssignAlloc self bst budget = (bst, false) := by
  cases bst with
  | nil => rfl
  | node l v r =>
    simp only [operatorAssignAlloc, copyConstructAlloc, copyNodesAlloc_of_le _ budget h,
      copyNodes_eq]

/-- Every cell of a copy is allocated afresh: the copy has the shape and values of the source,
its addresses were not in use before and are pairwise distinct, and nothing in use is
released. -/
theorem copyNodesCells_fresh (fresh : List Nat → Nat) (hfresh : ∀ live, fresh live ∉ live)
    (c : Cells T) (live : List Nat) :
    (copyNodesCells fresh c live).1.toNode = copyNodes c.toNode ∧
    (∀ x ∈ (copyNodesCells fresh c live).1.addrs, x ∉ live) ∧
    (copyNodesCells fresh c live).1.addrs.Nodup ∧
    (∀ x ∈ live, x ∈ (copyNodesCells fresh c live).2) ∧
    (∀ x ∈ (copyNodesCells fresh c live).1.addrs, x ∈ (copyNodesCells fresh c live).2) := by
  induction c generalizing live with
  | nil => simp [copyNodesCells, Cells.toNode, Cells.addrs, copyNodes]
  | node a l v r ihl ihr =>
    obtain ⟨hl1, hl2, hl3, hl4, hl5⟩ := ihl (fresh live :: live)
    obtain ⟨hr1, hr2, hr3, hr4, hr5⟩ := ihr (copyNodesCells fresh l (fresh live :: live)).2
    simp only [copyNodesCells, Cells.toNode, Cells.addrs, copyNodes, hl1, hr1,
      List.mem_cons, List.mem_append, List.nodup_cons, List.nodup_append, true_and]
    refine ⟨?_, ⟨⟨?_, hl3, hr3, ?_⟩, ?_, ?_⟩⟩
    · rintro x (rfl | hx | hx)
      · exact hfresh live
      · exact fun hxl => hl2 x hx (List.mem_cons_of_mem _ hxl)
      · exact fun hxl => hr2 x hx (hl4 x (List.mem_cons_of_mem _ hxl))
    · rintro (hx | hx)
      · exact hl2 _ hx (List.mem_cons_self _ _)
      · exact hr2 _ hx (hl4 _ (List.mem_cons_self _ _))
    · intro x hxl hxr
      exact hr2 x hxr (hl5 x hxl)
    · intro x hx
      exact hr4 x (hl4 x (List.mem_cons_of_mem _ hx))
    · rintro x (rfl | hx | hx)
      · exact hr4 _ (hl4 _ (List.mem_cons_self _ _))
      · exact hr4 x (hl5 x hx)
      · exact hr5 x hx

/-! ## findNode and subtree -/

theorem subtree_eq_findNode (compare equals : T → T → Bool) (t : Node T) (v : T) :
    subtree compare equals t v = findNode compare equals t v := by
  unfold subtree
  cases h : findNode compare equals t v with
  | nil => rfl
  | node l x r => exact copyNodes_eq _

/-- The node `findNode` returns is the first node of the descent that `equals` accepts. -/
theorem findNode_eq_find_descent (compare equals : T → T → Bool) (t : Node T) (v : T) :
    findNode compare equals t v =
      ((descent compare t v).find? (matchesValue equals v)).getD .nil := by
  induction t with
  | nil => rfl
  | node l x r ihl ihr =>
    simp only [findNode, descent, List.find?_cons, matchesValue]
    cases hxe : equals v x with
    | true => simp
    | false =>
      cases hlt : compare v x with
      | true => simpa using ihl
      | false => simpa using ihr

theorem findNode_eq_nil_iff (compare equals : T → T → Bool) (t : Node T) (v : T) :
    findNode compare equals t v = .nil ↔
      ∀ s ∈ descent compare t v, matchesValue equals v s = false := by
  induction t with
  | nil => simp [findNode, descent]
  | node l x r ihl ihr =>
    simp only [findNode, descent, List.mem_cons, forall_eq_or_imp, matchesValue]
    cases hxe : equals v x with
    | true => simp
    | false =>
      cases hlt : compare v x with
      | true => simpa using ihl
      | false => simpa using ihr

/-- A value equivalent to one before `y` is before `y`. -/
theorem lt_of_equiv_of_lt {compare : T → T → Bool} (hswo : StrictWeakOrder compare)
    {x v y : T} (hxv : equiv compare x v = true) (hxy : compare x y = true) :
    compare v y = true := by
  cases hvy : compare v y with
  | true => rfl
  | false =>
    cases hyv : compare y v with
    | true =>
      have hxv2 := hswo.trans x y v hxy hyv
      rw [not_equiv_of_lt hxv2] at hxv
      exact hxv
    | false =>
      have h1 : equiv compare v y = true := by simp [equiv, hvy, hyv]
      have h2 := hswo.equiv_trans x v y hxv h1
      rw [not_equiv_of_lt hxy] at h2
      exact h2

/-- A value equivalent to one after `y` is after `y`. -/
theorem gt_of_equiv_of_gt {compare : T → T → Bool} (hswo : StrictWeakOrder compare)
    {x v y : T} (hxv : equiv compare x v = true) (hyx : compare y x = true) :
    compare y v = true := by
  cases hyv : compare y v with
  | true => rfl
  | false =>
    cases hvy : compare v y with
    | true =>
      have hvx := hswo.trans v y x hvy hyx
      rw [not_equiv_of_gt hvx] at hxv
      exact hxv
    | false =>
      have h1 : equiv compare v y = true := by simp [equiv, hvy, hyv]
      have h2 := hswo.equiv_trans x v y hxv h1
      rw [not_equiv_of_gt hyx] at h2
      exact h2

/-- In an ordered tree, with `equals` ordering-equivalence, `findNode` returns the node whose
value is equivalent to the value searched. -/
theorem findNode_eq_of_nodeAt {compare equals : T → T → Bool} (hswo : StrictWeakOrder compare)
    (heq : ∀ a b, equals a b = equiv compare a b) (t : Node T) (v : T)
    (hbst : isBST compare t = true) (p : Pos) (l r : Node T) (x : T)
    (hnode : nodeAt t p = .node l x r) (hx : equiv compare x v = true) :
    findNode compare equals t v = .node l x r := by
  induction t generalizing p with
  | nil => rw [nodeAt_nil] at hnode; simp at hnode
  | node tl y tr ihl ihr =>
    simp only [isBST, Bool.and_eq_true, allValues_iff] at hbst
    obtain ⟨⟨⟨hl, hr⟩, hbl⟩, hbr⟩ := hbst
    cases p with
    | nil =>
      simp only [nodeAt, Node.node.injEq] at hnode
      obtain ⟨rfl, rfl, rfl⟩ := hnode
      have : equals v y = true := by rw [heq, equiv_symm]; exact hx
      simp [findNode, this]
    | cons d p =>
      cases d with
      | left =>
        simp only [nodeAt] at hnode
        have hlt := lt_of_equiv_of_lt hswo hx (hl x (mem_inorder_of_nodeAt hnode))
        have hne : equals v y = false := by rw [heq]; exact not_equiv_of_lt hlt
        simp only [findNode, hne, hlt, if_true]
        simpa using ihl hbl p hnode
      | right =>
        simp only [nodeAt] at hnode
        have hgt := gt_of_equiv_of_gt hswo hx (hr x (mem_inorder_of_nodeAt hnode))
        have hne : equals v y = false := by rw [heq]; exact not_equiv_of_gt hgt
        have hnlt : compare v y = false := hswo.asymm hgt
        simp only [findNode, hne, hnlt]
        simpa using ihr hbr p hnode

theorem isBST_nodeAt {compare : T → T → Bool} (t : Node T) (p : Pos)
    (hbst : isBST compare t = true) : isBST compare (nodeAt t p) = true := by
  induction t generalizing p with
  | nil => rw [nodeAt_nil]; rfl
  | node l y r ihl ihr =>
    cases p with
    | nil => exact hbst
    | cons d p =>
      simp only [isBST, Bool.and_eq_true] at hbst
      cases d with
      | left => exact ihl p hbst.1.2
      | right => exact ihr p hbst.2

/-- The node `findNode` returns holds a value that `equals` accepts. -/
theorem findNode_node {compare equals : T → T → Bool} {t l r : Node T} {v x : T}
    (h : findNode compare equals t v = .node l x r) :
    equals v x = true ∧ x ∈ inorder t := by
  induction t with
  | nil => simp [findNode] at h
  | node tl y tr ihl ihr =>
    simp only [findNode] at h
    simp only [inorder, List.mem_append, List.mem_cons]
    split at h
    · rename_i hxe
      simp only [Node.node.injEq] at h
      obtain ⟨_, rfl, _⟩ := h
      exact ⟨hxe, Or.inr (Or.inl rfl)⟩
    · split at h
      · exact ⟨(ihl h).1, Or.inl (ihl h).2⟩
      · exact ⟨(ihr h).1, Or.inr (Or.inr (ihr h).2)⟩

theorem equal_int_eq_equiv (a b : Int) : equal_int a b = equiv compare_int a b := by
  cases h : equiv compare_int a b with
  | true =>
    rw [equiv_compare_int] at h
    simp [equal_int, h]
  | false =>
    have hne : ¬ a = b := by
      intro hab
      rw [← equiv_compare_int, h] at hab
      exact absurd hab (by simp)
    simp [equal_int, hne]

/-! ## Construction from a sequence -/

theorem applyOps_map_insert (compare : T → T → Bool) (xs : List T) (t : Node T) :
    applyOps compare t (xs.map Op.insert) = xs.foldl (insert compare) t := by
  induction xs generalizing t with
  | nil => rfl
  | cons x xs ih =>
    simp only [List.map_cons, applyOps, List.foldl_cons, applyOp]
    exact ih (insert compare t x)

/-- A value equivalent to no stored one is added to the in-order sequence, nothing else
changes in it. -/
theorem perm_inorder_insert_fresh {compare : T → T → Bool} (t : Node T) (v : T)
    (hv : ∀ x ∈ inorder t, equiv compare v x = false) :
    (inorder (insert compare t v)).Perm (v :: inorder t) := by
  induction t with
  | nil => simp [insert, inorder]
  | node l y r ihl ihr =>
    simp only [inorder, List.mem_append, List.mem_cons] at hv
    have hl := ihl (fun x hx => hv x (Or.inl hx))
    have hr := ihr (fun x hx => hv x (Or.inr (Or.inr hx)))
    have hy := hv y (Or.inr (Or.inl rfl))
    simp only [insert]
    split
    · simp only [inorder]
      exact (hl.append_right _).trans (by simp)
    · split
      · simp only [inorder]
        have h1 : (inorder l ++ y :: inorder (insert compare r v)).Perm
            (inorder l ++ y :: v :: inorder r) :=
          List.Perm.append_left _ (List.Perm.cons y hr)
        refine h1.trans ?_
        have h2 : (inorder l ++ y :: v :: inorder r) = (inorder l ++ [y]) ++ v :: inorder r := by
          simp
        rw [h2]
        refine List.perm_middle.trans ?_
        simp
      · rename_i h1 h2
        simp [equiv, h1, h2] at hy

theorem pairwise_not_equiv_firstOccurrences (compare : T → T → Bool) (xs : List T) :
    (firstOccurrences compare xs).Pairwise (fun a b => equiv compare a b = false) := by
  induction xs with
  | nil => simp [firstOccurrences]
  | cons x xs ih =>
    simp only [firstOccurrences, List.pairwise_cons, List.mem_filter]
    refine ⟨fun y hy => by simpa using hy.2, ih.filter _⟩

theorem sublist_firstOccurrences (compare : T → T → Bool) (xs : List T) :
    (firstOccurrences compare xs).Sublist xs := by
  induction xs with
  | nil => simp [firstOccurrences]
  | cons x xs ih =>
    simp only [firstOccurrences]
    exact List.Sublist.cons₂ x ((List.filter_sublist _).trans ih)

/-- Every element of the sequence has its class represented among the first occurrences. -/
theorem exists_equiv_firstOccurrences {compare : T → T → Bool}
    (hswo : StrictWeakOrder compare) (xs : List T) :
    ∀ x ∈ xs, ∃ y ∈ firstOccurrences compare xs, equiv compare y x = true := by
  induction xs with
  | nil => simp
  | cons a xs ih =>
    intro x hx
    rcases List.mem_cons.mp hx with rfl | hx
    · exact ⟨x, by simp [firstOccurrences], equiv_refl hswo x⟩
    · obtain ⟨y, hy, hyx⟩ := ih x hx
      cases hay : equiv compare a y with
      | true =>
        exact ⟨a, by simp [firstOccurrences], hswo.equiv_trans a y x hay hyx⟩
      | false =>
        exact ⟨y, by simp [firstOccurrences, hy, hay], hyx⟩

/-- Inserting a sequence into an ordered tree adds, in some order, the first occurrences of
the classes that the tree did not hold. -/
theorem perm_inorder_foldl_insert {compare : T → T → Bool} (hswo : StrictWeakOrder compare)
    (xs : List T) (t : Node T) (hbst : isBST compare t = true) :
    (inorder (xs.foldl (insert compare) t)).Perm
      (inorder t ++ (firstOccurrences compare xs).filter
        (fun y => !(inorder t).any (fun z => equiv compare z y))) := by
  induction xs generalizing t with
  | nil => simp [firstOccurrences]
  | cons x xs ih =>
    simp only [List.foldl_cons, firstOccurrences, List.filter_cons]
    cases hA : (inorder t).any (fun z => equiv compare z x) with
    | true =>
      obtain ⟨z, hz, hzx⟩ := List.any_eq_true.mp hA
      have hsame : insert compare t x = t :=
        insert_eq_self_of_equiv hswo.trans t x hbst ⟨z, hz, by rw [equiv_symm]; exact hzx⟩
      rw [hsame]
      simp only [Bool.not_true, Bool.false_eq_true, if_false, List.filter_filter]
      have hcongr : (firstOccurrences compare xs).filter
            (fun a => (!(inorder t).any (fun z => equiv compare z a)) && !equiv compare x a)
          = (firstOccurrences compare xs).filter
            (fun y => !(inorder t).any (fun z => equiv compare z y)) := by
        apply List.filter_congr
        intro y _
        cases hxy : equiv compare x y with
        | false => simp
        | true =>
          have hany : (inorder t).any (fun z => equiv compare z y) = true :=
            List.any_eq_true.mpr ⟨z, hz, hswo.equiv_trans z x y hzx hxy⟩
          simp [hany]
      rw [hcongr]
      exact ih t hbst
    | false =>
      have hfresh : ∀ z ∈ inorder t, equiv compare x z = false := by
        intro z hz
        cases hxz : equiv compare x z with
        | false => rfl
        | true =>
          have : (inorder t).any (fun z => equiv compare z x) = true :=
            List.any_eq_true.mpr ⟨z, hz, by rw [equiv_symm]; exact hxz⟩
          rw [hA] at this
          exact this.symm
      have hperm := perm_inorder_insert_fresh t x hfresh
      have hnext := ih (insert compare t x) (isBST_insert compare t x hbst)
      simp only [Bool.not_false, if_true, List.filter_filter]
      have hcongr : (firstOccurrences compare xs).filter
            (fun y => !(inorder (insert compare t x)).any (fun z => equiv compare z y))
          = (firstOccurrences compare xs).filter
            (fun a => (!(inorder t).any (fun z => equiv compare z a)) && !equiv compare x a) := by
        apply List.filter_congr
        intro y _
        have hiff : (inorder (insert compare t x)).any (fun z => equiv compare z y) =
            (equiv compare x y || (inorder t).any (fun z => equiv compare z y)) := by
          rw [Bool.eq_iff_iff]
          simp only [List.any_eq_true, Bool.or_eq_true, hperm.mem_iff, List.mem_cons]
          constructor
          · rintro ⟨z, rfl | hz, hzy⟩
            · exact Or.inl hzy
            · exact Or.inr ⟨z, hz, hzy⟩
          · rintro (h | ⟨z, hz, hzy⟩)
            · exact ⟨x, Or.inl rfl, h⟩
            · exact ⟨z, Or.inr hz, hzy⟩
        rw [hiff]
        cases equiv compare x y <;> simp
      rw [hcongr] at hnext
      refine hnext.trans ?_
      refine (hperm.append_right _).trans ?_
      exact List.perm_middle.symm

theorem perm_inorder_fromSequence {compare : T → T → Bool} (hswo : StrictWeakOrder compare)
    (xs : List T) :
    (inorder (fromSequence compare xs)).Perm (firstOccurrences compare xs) := by
  have h := perm_inorder_foldl_insert hswo xs .nil rfl
  simpa [fromSequence, inorder] using h

/-! ## printIF -/

/-- The loop of `printIF` writes what the cursor walk collects, filtered and rendered. -/
theorem printIFLoop_eq_walk (compare : T → T → Bool) (render : T → String) (pred : T → Bool)
    (fuel : Nat) (it : const_iterator T) (out : String) :
    printIFLoop compare render pred fuel it out =
      (walk compare fuel it).map
        (fun vs => out ++ String.join ((vs.filter pred).map (fun v => render v ++ " "))) := by
  induction fuel generalizing it out with
  | zero =>
    rw [printIFLoop, walk]
    split
    · simp [String.join]
    · rfl
  | succ fuel ih =>
    rw [printIFLoop, walk]
    split
    · simp [String.join]
    · cases hd : deref it with
      | none => rfl
      | some v =>
        cases hn : preIncrement compare it with
        | none => rfl
        | some next =>
          simp only [ih]
          cases walk compare fuel next with
          | none => rfl
          | some rest =>
            cases hp : pred v with
            | true => simp [List.filter_cons, hp, join_cons, String.append_assoc]
            | false => simp [List.filter_cons, hp]

/-! ## clear and the terminal cursor -/

/-- Every cell of the tree is passed to `delete` once, nothing else is. -/
theorem perm_deleteSubtreeCells (c : Cells T) : (deleteSubtreeCells c).Perm c.addrs := by
  induction c with
  | nil => exact List.Perm.refl _
  | node a l v r ihl ihr =>
    simp only [deleteSubtreeCells, Cells.addrs]
    exact (List.perm_append_singleton a _).trans (List.Perm.cons a (ihl.append ihr))

theorem preIncrement_terminal (compare : T → T → Bool) (it : const_iterator T)
    (h : it.n = none) : preIncrement compare it = some it := by
  simp [preIncrement, h]

theorem advance_terminal (compare : T → T → Bool) (k : Nat) (it : const_iterator T)
    (h : it.n = none) : advance compare k it = some it := by
  induction k with
  | zero => rfl
  | succ k ih => simp only [advance, preIncrement_terminal compare it h, ih]

/-! ## insert of a fresh value -/

/-- A value equivalent to no stored one is linked as a leaf in place of a null link. -/
theorem insert_eq_replaceAt {compare : T → T → Bool} (t : Node T) (v : T)
    (hv : ∀ x ∈ inorder t, equiv compare v x = false) :
    ∃ p, nodeAt t p = .nil ∧ insert compare t v = replaceAt t p (.node .nil v .nil) ∧
      nodeAt (insert compare t v) p = .node .nil v .nil ∧ (t = .nil → p = []) := by
  induction t with
  | nil => exact ⟨[], rfl, rfl, rfl, fun _ => rfl⟩
  | node l y r ihl ihr =>
    simp only [inorder, List.mem_append, List.mem_cons] at hv
    have hy := hv y (Or.inr (Or.inl rfl))
    simp only [insert]
    split
    · obtain ⟨p, h1, h2, h3, _⟩ := ihl (fun x hx => hv x (Or.inl hx))
      exact ⟨Dir.left :: p, by simpa [nodeAt] using h1, by simp [replaceAt, h2],
        by simpa [nodeAt] using h3, fun h => by simp at h⟩
    · split
      · obtain ⟨p, h1, h2, h3, _⟩ := ihr (fun x hx => hv x (Or.inr (Or.inr hx)))
        exact ⟨Dir.right :: p, by simpa [nodeAt] using h1, by simp [replaceAt, h2],
          by simpa [nodeAt] using h3, fun h => by simp at h⟩
      · rename_i h1 h2
        simp [equiv, h1, h2] at hy

theorem valueAt_left (a b : Node T) (z : T) (q : Pos) :
    valueAt (.node a z b) (Dir.left :: q) = valueAt a q := rfl

theorem valueAt_right (a b : Node T) (z : T) (q : Pos) :
    valueAt (.node a z b) (Dir.right :: q) = valueAt b q := rfl

/-- `insert` leaves every node where it is, with its value. -/
theorem valueAt_insert_of_node (compare : T → T → Bool) (t : Node T) (v : T) (q : Pos)
    (hq : nodeAt t q ≠ .nil) : valueAt (insert compare t v) q = valueAt t q := by
  induction t generalizing q with
  | nil => rw [nodeAt_nil] at hq; exact absurd rfl hq
  | node l y r ihl ihr =>
    rw [insert]
    by_cases h1 : compare v y = true
    · rw [if_pos h1]
      cases q with
      | nil => rfl
      | cons d q =>
        cases d with
        | left =>
          simp only [nodeAt] at hq
          rw [valueAt_left, valueAt_left, ihl q hq]
        | right => rfl
    · rw [if_neg h1]
      by_cases h2 : compare y v = true
      · rw [if_pos h2]
        cases q with
        | nil => rfl
        | cons d q =>
          cases d with
          | left => rfl
          | right =>
            simp only [nodeAt] at hq
            rw [valueAt_right, valueAt_right, ihr q hq]
      · rw [if_neg h2]

theorem filter_eq_nil_of_forall {p : T → Bool} (xs : List T) (h : ∀ x ∈ xs, p x = false) :
    xs.filter p = [] := by
  induction xs with
  | nil => rfl
  | cons x xs ih =>
    rw [List.filter_cons, h x (List.mem_cons_self x xs)]
    exact ih (fun y hy => h y (List.mem_cons_of_mem x hy))

theorem filter_eq_self_of_forall {p : T → Bool} (xs : List T) (h : ∀ x ∈ xs, p x = true) :
    xs.filter p = xs := by
  rw [List.filter_eq_self]
  exact h

/-- In an ordered tree a value equivalent to no stored one lands between the values before
it and the values after it. -/
theorem inorder_insert_fresh {compare : T → T → Bool} (hswo : StrictWeakOrder compare)
    (t : Node T) (v : T) (hbst : isBST compare t = true)
    (hv : ∀ x ∈ inorder t, equiv compare v x = false) :
    inorder (insert compare t v) =
      (inorder t).filter (fun x => compare x v) ++ v :: (inorder t).filter (fun x => compare v x) := by
  induction t with
  | nil => rfl
  | node l y r ihl ihr =>
    simp only [isBST, Bool.and_eq_true, allValues_iff] at hbst
    obtain ⟨⟨⟨hl, hr⟩, hbl⟩, hbr⟩ := hbst
    simp only [inorder, List.mem_append, List.mem_cons] at hv
    have hy := hv y (Or.inr (Or.inl rfl))
    simp only [insert]
    split
    · rename_i hlt
      have h1 : (inorder r).filter (fun x => compare x v) = [] :=
        filter_eq_nil_of_forall _ (fun x hx => hswo.asymm (hswo.trans v y x hlt (hr x hx)))
      have h2 : (inorder r).filter (fun x => compare v x) = inorder r :=
        filter_eq_self_of_forall _ (fun x hx => hswo.trans v y x hlt (hr x hx))
      simp only [inorder, ihl hbl (fun x hx => hv x (Or.inl hx)), List.filter_append,
        List.filter_cons, hswo.asymm hlt, hlt, h1, h2]
      simp
    · split
      · rename_i hnlt hgt
        have h1 : (inorder l).filter (fun x => compare x v) = inorder l :=
          filter_eq_self_of_forall _ (fun x hx => hswo.trans x y v (hl x hx) hgt)
        have h2 : (inorder l).filter (fun x => compare v x) = [] :=
          filter_eq_nil_of_forall _ (fun x hx => hswo.asymm (hswo.trans x y v (hl x hx) hgt))
        simp only [inorder, ihr hbr (fun x hx => hv x (Or.inr (Or.inr hx))), List.filter_append,
          List.filter_cons, hswo.asymm hgt, hgt, h1, h2]
        simp
      · rename_i h1 h2
        simp [equiv, h1, h2] at hy

/-- An increasing sequence without a value equivalent to `v` is its values before `v`
followed by its values after `v`. -/
theorem split_of_pairwise {compare : T → T → Bool} (hswo : StrictWeakOrder compare) (v : T)
    (xs : List T) (hpw : xs.Pairwise (fun a b => compare a b = true))
    (hv : ∀ x ∈ xs, equiv compare v x = false) :
    xs = xs.filter (fun x => compare x v) ++ xs.filter (fun x => compare v x) := by
  induction xs with
  | nil => rfl
  | cons y ys ih =>
    rw [List.pairwise_cons] at hpw
    obtain ⟨hy, hpw⟩ := hpw
    have hrec := ih hpw (fun x hx => hv x (List.mem_cons_of_mem y hx))
    cases hyv : compare y v with
    | true =>
      simp only [List.filter_cons, hyv, hswo.asymm hyv, if_true, List.cons_append]
      simp only [Bool.false_eq_true, if_false]
      rw [← hrec]
    | false =>
      have hvy : compare v y = true := by
        cases h : compare v y with
        | true => rfl
        | false =>
          have := hv y (List.mem_cons_self y ys)
          simp [equiv, h, hyv] at this
      have h1 : ys.filter (fun x => compare x v) = [] :=
        filter_eq_nil_of_forall _ (fun x hx => hswo.asymm (hswo.trans v y x hvy (hy x hx)))
      have h2 : ys.filter (fun x => compare v x) = ys :=
        filter_eq_self_of_forall _ (fun x hx => hswo.trans v y x hvy (hy x hx))
      simp [List.filter_cons, hyv, hvy, h1, h2]

/-- The place of `v` in an increasing sequence is determined. -/
theorem split_unique {compare : T → T → Bool} (hswo : StrictWeakOrder compare) (v : T)
    (pre post : List T) (hpw : (pre ++ v :: post).Pairwise (fun a b => compare a b = true)) :
    pre = (pre ++ post).filter (fun x => compare x v) ∧
    post = (pre ++ post).filter (fun x => compare v x) := by
  rw [List.pairwise_append, List.pairwise_cons] at hpw
  obtain ⟨_, ⟨hpost, _⟩, hpre⟩ := hpw
  have hpre2 : ∀ x ∈ pre, compare x v = true := fun x hx => hpre x hx v (List.mem_cons_self v post)
  rw [List.filter_append, List.filter_append,
    filter_eq_self_of_forall pre hpre2,
    filter_eq_nil_of_forall post (fun x hx => hswo.asymm (hpost x hx)),
    filter_eq_nil_of_forall pre (fun x hx => hswo.asymm (hpre2 x hx)),
    filter_eq_self_of_forall post hpost]
  simp

/-! ## Deletion of a node with two children -/

theorem leftmostValue_mem (l : Node T) (v : T) (r : Node T) :
    leftmostValue l v ∈ inorder (.node l v r) := by
  obtain ⟨rest, hrest⟩ := inorder_head_leftmostValue l v r
  rw [hrest]
  exact List.mem_cons_self _ _

/-- The in-order sequence is the leftmost value followed by the in-order sequence of the tree
without its leftmost node. -/
theorem inorder_removeLeftmost (l : Node T) (v : T) (r : Node T) :
    inorder (.node l v r) = leftmostValue l v :: inorder (removeLeftmost (.node l v r)) := by
  induction l generalizing v r with
  | nil => rfl
  | node ll lv lr ihl _ =>
    have h := ihl lv lr
    simp only [leftmostValue, removeLeftmost]
    rw [inorder, h, inorder]
    rfl

theorem isBST_node (compare : T → T → Bool) (l : Node T) (v : T) (r : Node T) :
    isBST compare (.node l v r) = true ↔
      (∀ x ∈ inorder l, compare x v = true) ∧ (∀ x ∈ inorder r, compare v x = true) ∧
        isBST compare l = true ∧ isBST compare r = true := by
  rw [isBST]
  simp only [Bool.and_eq_true, allValues_iff]
  constructor
  · rintro ⟨⟨⟨h1, h2⟩, h3⟩, h4⟩
    exact ⟨h1, h2, h3, h4⟩
  · rintro ⟨h1, h2, h3, h4⟩
    exact ⟨⟨⟨h1, h2⟩, h3⟩, h4⟩

theorem deleteNode_lt {compare : T → T → Bool} (l : Node T) (y : T) (r : Node T) (v : T)
    (h : compare v y = true) :
    deleteNode compare (.node l y r) v = .node (deleteNode compare l v) y r := by
  simp [deleteNode, h]

theorem deleteNode_gt {compare : T → T → Bool} (l : Node T) (y : T) (r : Node T) (v : T)
    (h1 : compare v y = false) (h2 : compare y v = true) :
    deleteNode compare (.node l y r) v = .node l y (deleteNode compare r v) := by
  simp [deleteNode, h1, h2]

/-- In an ordered tree the descent of `deleteNode` for the leftmost value ends on the leftmost
node and removes it. -/
theorem deleteNode_leftmostValue {compare : T → T → Bool} (hswo : StrictWeakOrder compare)
    (l : Node T) (v : T) (r : Node T) (hbst : isBST compare (.node l v r) = true) :
    deleteNode compare (.node l v r) (leftmostValue l v) = removeLeftmost (.node l v r) := by
  induction l generalizing v r with
  | nil => simp [deleteNode, leftmostValue, removeLeftmost, hswo.irrefl]
  | node ll lv lr ihl _ =>
    obtain ⟨hl, _, hbl, _⟩ := (isBST_node compare _ v r).mp hbst
    have hlt : compare (leftmostValue ll lv) v = true := hl _ (leftmostValue_mem ll lv lr)
    have ih := ihl lv lr hbl
    simp only [leftmostValue, removeLeftmost]
    rw [deleteNode_lt _ _ _ _ hlt, ih]

/-- In an ordered tree `deleteNode` changes only the subtree rooted at the node equivalent to
the value. -/
theorem deleteNode_eq_replaceAt {compare : T → T → Bool} (hswo : StrictWeakOrder compare)
    (t : Node T) (v : T) (hbst : isBST compare t = true) (p : Pos) (l r : Node T) (x : T)
    (hnode : nodeAt t p = .node l x r) (hx : equiv compare x v = true) :
    deleteNode compare t v = replaceAt t p (deleteNode compare (.node l x r) v) := by
  induction t generalizing p with
  | nil => rw [nodeAt_nil] at hnode; simp at hnode
  | node tl y tr ihl ihr =>
    simp only [isBST, Bool.and_eq_true, allValues_iff] at hbst
    obtain ⟨⟨⟨hl, hr⟩, hbl⟩, hbr⟩ := hbst
    cases p with
    | nil =>
      simp only [nodeAt] at hnode
      rw [hnode]
      rfl
    | cons d p =>
      cases d with
      | left =>
        simp only [nodeAt] at hnode
        have hlt := lt_of_equiv_of_lt hswo hx (hl x (mem_inorder_of_nodeAt hnode))
        rw [deleteNode_lt _ _ _ _ hlt, ihl hbl p hnode]
        rfl
      | right =>
        simp only [nodeAt] at hnode
        have hgt := gt_of_equiv_of_gt hswo hx (hr x (mem_inorder_of_nodeAt hnode))
        rw [deleteNode_gt _ _ _ _ (hswo.asymm hgt) hgt, ihr hbr p hnode]
        rfl

/-- The branch of `deleteNode` for a node with two children. -/
theorem deleteNode_two_children {compare : T → T → Bool} (ll lr rl rr : Node T)
    (lx x rv v : T) (hx : equiv compare x v = true) :
    deleteNode compare (.node (.node ll lx lr) x (.node rl rv rr)) v =
      .node (.node ll lx lr) (leftmostValue rl rv)
        (deleteNode compare (.node rl rv rr) (leftmostValue rl rv)) := by
  simp only [equiv, Bool.and_eq_true, Bool.not_eq_true'] at hx
  simp [deleteNode, hx.1, hx.2]

theorem nodeAt_replaceAt (t : Node T) (p : Pos) (s : Node T) (h : nodeAt t p ≠ .nil) :
    nodeAt (replaceAt t p s) p = s := by
  induction t generalizing p with
  | nil => rw [nodeAt_nil] at h; exact absurd rfl h
  | node l y r ihl ihr =>
    cases p with
    | nil => simp [replaceAt, nodeAt]
    | cons d p =>
      cases d with
      | left => exact ihl p h
      | right => exact ihr p h

theorem valueAt_leftmostPos (l : Node T) (v : T) (r : Node T) :
    valueAt (.node l v r) (leftmostPos (.node l v r)) = some (leftmostValue l v) := by
  obtain ⟨r2, h⟩ := nodeAt_leftmostPos l v r
  simp [valueAt, h]

/-! ## contains and findNode visit the same nodes -/

/-- The answer of `contains` is whether some node of the descent holds a value that `equals`
accepts. -/
theorem contains_eq_any_descent (compare equals : T → T → Bool) (t : Node T) (v : T) :
    contains compare equals t v = (descent compare t v).any (matchesValue equals v) := by
  induction t with
  | nil => rfl
  | node l x r ihl ihr =>
    simp only [contains, descent, List.any_cons, matchesValue]
    cases hxe : equals v x with
    | true => simp
    | false =>
      cases hlt : compare v x with
      | true => simpa using ihl
      | false => simpa using ihr

theorem contains_iff_findNode (compare equals : T → T → Bool) (t : Node T) (v : T) :
    contains compare equals t v = true ↔ findNode compare equals t v ≠ .nil := by
  induction t with
  | nil => simp [contains, findNode]
  | node l x r ihl ihr =>
    simp only [contains, findNode]
    cases hxe : equals v x with
    | true => simp
    | false =>
      cases hlt : compare v x with
      | true => simpa using ihl
      | false => simpa using ihr

theorem size_pos_iff (t : Node T) : 0 < size t ↔ t ≠ .nil := by
  cases t with
  | nil => simp [size, sizeNode]
  | node l v r => simp [size, sizeNode]

/-- The node `findNode` returns is found at once by `contains` run on it. -/
theorem contains_findNode (compare equals : T → T → Bool) (t : Node T) (v : T)
    (h : findNode compare equals t v ≠ .nil) :
    contains compare equals (findNode compare equals t v) v = true := by
  cases hf : findNode compare equals t v with
  | nil => exact absurd hf h
  | node l x r =>
    have hxe := (findNode_node hf).1
    simp [contains, hxe]

theorem isBST_findNode (compare equals : T → T → Bool) (t : Node T) (v : T)
    (hbst : isBST compare t = true) : isBST compare (findNode compare equals t v) = true := by
  induction t with
  | nil => rfl
  | node l x r ihl ihr =>
    obtain ⟨_, _, hbl, hbr⟩ := (isBST_node compare l x r).mp hbst
    simp only [findNode]
    split
    · exact hbst
    · split
      · exact ihl hbl
      · exact ihr hbr

/-! ## insert then remove -/

/-- A value just inserted as a new leaf is removed by `deleteNode` along the same descent. -/
theorem deleteNode_insert_fresh {compare : T → T → Bool} (hirrefl : ∀ a, compare a a = false)
    (t : Node T) (v : T) (hv : ∀ x ∈ inorder t, equiv compare v x = false) :
    deleteNode compare (insert compare t v) v = t := by
  induction t with
  | nil => simp [insert, deleteNode, hirrefl]
  | node l y r ihl ihr =>
    simp only [inorder, List.mem_append, List.mem_cons] at hv
    have hy := hv y (Or.inr (Or.inl rfl))
    simp only [insert]
    split
    · rename_i hlt
      rw [deleteNode_lt _ _ _ _ hlt, ihl (fun x hx => hv x (Or.inl hx))]
    · split
      · rename_i hnlt hgt
        have hnlt2 : compare v y = false := by simpa using hnlt
        rw [deleteNode_gt _ _ _ _ hnlt2 hgt, ihr (fun x hx => hv x (Or.inr (Or.inr hx)))]
      · rename_i h1 h2
        simp [equiv, h1, h2] at hy

/-! ## The re-descent of the cursor -/

theorem nodeAt_append (t : Node T) (q r : Pos) : nodeAt t (q ++ r) = nodeAt (nodeAt t q) r := by
  induction t generalizing q with
  | nil => simp [nodeAt_nil]
  | node l v rt ihl ihr =>
    cases q with
    | nil => rfl
    | cons d q =>
      cases d with
      | left => exact ihl q
      | right => exact ihr q

/-- Every prefix of the address of a node is the address of a node. -/
theorem nodeAt_ne_nil_of_prefix (t : Node T) (q p : Pos) (hpre : q <+: p)
    (hp : nodeAt t p ≠ .nil) : nodeAt t q ≠ .nil := by
  obtain ⟨r, rfl⟩ := hpre
  intro hq
  rw [nodeAt_append, hq, nodeAt_nil] at hp
  exact hp rfl

/-- The address of a node is shorter than the height of the tree. -/
theorem length_lt_height (t : Node T) (p : Pos) (hp : nodeAt t p ≠ .nil) :
    p.length < height t := by
  induction t generalizing p with
  | nil => rw [nodeAt_nil] at hp; exact absurd rfl hp
  | node l v r ihl ihr =>
    cases p with
    | nil => simp [height]
    | cons d p =>
      cases d with
      | left =>
        have := ihl p hp
        simp only [List.length_cons, height]
        omega
      | right =>
        have := ihr p hp
        simp only [List.length_cons, height]
        omega

/-- The loop that records its visits ends or fails exactly as the loop of `operator++`. -/
theorem redescend_isSome_eq (compare : T → T → Bool) (nv : T) (n : Pos) (s : Node T)
    (cur : Pos) (parent : Option Pos) :
    (redescend compare nv n s cur parent).isSome =
      (redescendVisits compare nv n s cur).isSome := by
  induction s generalizing cur parent with
  | nil => rfl
  | node l x r ihl ihr =>
    rw [redescend, redescendVisits]
    by_cases h1 : cur = n
    · simp [h1]
    · rw [if_neg h1, if_neg h1]
      by_cases h2 : compare nv x = true
      · rw [if_pos h2, if_pos h2, ihl]
        cases redescendVisits compare nv n l (cur ++ [Dir.left]) <;> rfl
      · rw [if_neg h2, if_neg h2, ihr]
        cases redescendVisits compare nv n r (cur ++ [Dir.right]) <;> rfl

/-- In an ordered tree the re-descent for the value of the node at an address visits the
prefixes of that address, shortest first, and ends on the address itself. -/
theorem redescendVisits_eq {compare : T → T → Bool} (hswo : StrictWeakOrder compare) (nv : T)
    (s : Node T) (q cur : Pos) (l r : Node T)
    (hbst : isBST compare s = true) (hq : nodeAt s q = .node l nv r) :
    redescendVisits compare nv (cur ++ q) s cur =
      some ((List.inits q).map (fun x => cur ++ x)) := by
  induction s generalizing q cur with
  | nil => rw [nodeAt_nil] at hq; simp at hq
  | node sl x sr ihl ihr =>
    obtain ⟨hl, hr, hbl, hbr⟩ := (isBST_node compare sl x sr).mp hbst
    cases q with
    | nil => simp [redescendVisits]
    | cons d q =>
      have hne : ¬ cur = cur ++ d :: q := by simp
      cases d with
      | left =>
        simp only [nodeAt] at hq
        have hlt := hl nv (mem_inorder_of_nodeAt hq)
        have ih := ihl q (cur ++ [Dir.left]) hbl hq
        rw [List.append_assoc, List.singleton_append] at ih
        rw [redescendVisits, if_neg hne, if_pos hlt, ih]
        simp [List.inits_cons, List.map_map, Function.comp_def]
      | right =>
        simp only [nodeAt] at hq
        have hgt := hr nv (mem_inorder_of_nodeAt hq)
        have hnlt : ¬ compare nv x = true := by rw [hswo.asymm hgt]; simp
        have ih := ihr q (cur ++ [Dir.right]) hbr hq
        rw [List.append_assoc, List.singleton_append] at ih
        rw [redescendVisits, if_neg hne, if_neg hnlt, ih]
        simp [List.inits_cons, List.map_map, Function.comp_def]

theorem getLast_inits (p : Pos) : (List.inits p).getLast? = some p := by
  induction p with
  | nil => rfl
  | cons d p ih =>
    rw [List.inits_cons]
    cases hq : List.inits p with
    | nil =>
      have := List.length_inits p
      rw [hq] at this
      simp at this
    | cons a as =>
      rw [hq] at ih
      rw [List.map_cons, List.getLast?_cons_cons, ← List.map_cons, List.getLast?_map, ih]
      rfl

/-! # The claims -/

/-- C1: `insert` preserves the BST order invariant. For a strict weak ordering, a tree that
satisfies the invariant still satisfies it after `insert(v)` and stores no two
ordering-equivalent values; every tree built from the empty tree by inserts satisfies the
invariant and stores no two ordering-equivalent values. -/
theorem C1_insert_preserves_isBST {compare : T → T → Bool} (hswo : StrictWeakOrder compare)
    (t : Node T) (v : T) (hbst : isBST compare t = true) :
    isBST compare (insert compare t v) = true ∧
    (inorder (insert compare t v)).Pairwise (fun a b => equiv compare a b = false) ∧
    ∀ xs : List T, isBST compare (fromSequence compare xs) = true ∧
      (inorder (fromSequence compare xs)).Pairwise (fun a b => equiv compare a b = false) := by
  have hstep := isBST_insert compare t v hbst
  refine ⟨hstep, ?_, ?_⟩
  · exact (pairwise_of_isBST hswo.trans _ hstep).imp (fun h => not_equiv_of_lt h)
  · intro xs
    have hall : isBST compare (fromSequence compare xs) = true :=
      isBST_fromSequence_aux compare xs .nil rfl
    exact ⟨hall, (pairwise_of_isBST hswo.trans _ hall).imp (fun h => not_equiv_of_lt h)⟩

theorem C1_insert_preserves_isBST_witness :
    isBST compare_int (fromSequence compare_int [10, 5, 15]) = true ∧
    isBST compare_int (insert compare_int (fromSequence compare_int [10, 5, 15]) 7) = true :=
  ⟨by decide, (C1_insert_preserves_isBST strictWeakOrder_compare_int
    (fromSequence compare_int [10, 5, 15]) 7 (by decide)).1⟩

/-- C2: insert-then-contains. For a strict weak ordering and a reflexive `equals`, after
inserting a sequence of pairwise non-equivalent values into an empty tree, `contains` is true
for every inserted value and `size()` is the length of the sequence. -/
theorem C2_insert_then_contains {compare equals : T → T → Bool}
    (hswo : StrictWeakOrder compare) (hrefl : ∀ a, equals a a = true) (xs : List T)
    (hdist : xs.Pairwise (fun a b => equiv compare a b = false)) :
    (∀ v ∈ xs, contains compare equals (fromSequence compare xs) v = true) ∧
    size (fromSequence compare xs) = xs.length := by
  obtain ⟨hsize, _, hmem⟩ := fromSequence_distinct_aux xs .nil hdist (by simp [inorder])
  have hbst : isBST compare (fromSequence compare xs) = true :=
    isBST_fromSequence_aux compare xs .nil rfl
  refine ⟨fun v hv => contains_of_mem hswo hrefl _ v hbst (hmem v hv), ?_⟩
  simpa [fromSequence, size, sizeNode] using hsize

theorem C2_insert_then_contains_witness :
    contains compare_person equal_person
      (fromSequence compare_person
        [⟨1, "Alice"⟩, ⟨2, "Bob"⟩, ⟨3, "Charlie"⟩, ⟨4, "David"⟩]) ⟨3, "Charlie"⟩ = true ∧
    size (fromSequence compare_person
        [⟨1, "Alice"⟩, ⟨2, "Bob"⟩, ⟨3, "Charlie"⟩, ⟨4, "David"⟩]) = 4 :=
  have h := @C2_insert_then_contains Person compare_person equal_person
    strictWeakOrder_compare_person
    (by intro a; simp [equal_person])
    [⟨1, "Alice"⟩, ⟨2, "Bob"⟩, ⟨3, "Charlie"⟩, ⟨4, "David"⟩]
    (by simp [equiv, compare_person])
  ⟨h.1 ⟨3, "Charlie"⟩ (by simp), h.2⟩

/-- C3: duplicate suppression. In a tree that satisfies the invariant, inserting a value
ordering-equivalent to a stored one leaves the tree identical: same shape, same `size()`, and
the stored values (payloads included) unchanged. `compare` is an ordering: it is transitive. -/
theorem C3_insert_duplicate_noop {compare : T → T → Bool}
    (htrans : ∀ a b c, compare a b = true → compare b c = true → compare a c = true)
    (t : Node T) (v : T) (hbst : isBST compare t = true)
    (hdup : ∃ x ∈ inorder t, equiv compare v x = true) :
    insert compare t v = t ∧ size (insert compare t v) = size t ∧
    inorder (insert compare t v) = inorder t := by
  have h := insert_eq_self_of_equiv htrans t v hbst hdup
  rw [h]
  exact ⟨rfl, rfl, rfl⟩

theorem C3_insert_duplicate_noop_witness :
    insert compare_person (insert compare_person .nil ⟨1, "Alice"⟩) ⟨1, "Bob"⟩ =
      .node .nil ⟨1, "Alice"⟩ .nil ∧
    size (insert compare_person (insert compare_person .nil ⟨1, "Alice"⟩) ⟨1, "Bob"⟩) = 1 :=
  have h := C3_insert_duplicate_noop strictWeakOrder_compare_person.trans
    (insert compare_person .nil ⟨1, "Alice"⟩) ⟨1, "Bob"⟩ (by decide)
    ⟨⟨1, "Alice"⟩, by simp [insert, inorder], by decide⟩
  ⟨h.1, h.2.1⟩

/-- C4: remove-then-not-contains. For a strict weak ordering, `equals` coinciding with
ordering-equivalence and a tree that satisfies the invariant, if a value equivalent to `v` is
stored (so `contains(v)` is true), then after `remove(v)` `contains(v)` is false and `size()` is
one less, wherever the node is and however many children it has. -/
theorem C4_remove_then_not_contains {compare equals : T → T → Bool}
    (hswo : StrictWeakOrder compare) (heq : ∀ a b, equals a b = equiv compare a b)
    (t : Node T) (v : T) (hbst : isBST compare t = true)
    (hpres : ∃ x ∈ inorder t, equiv compare x v = true) :
    contains compare equals t v = true ∧
    contains compare equals (remove compare t v) v = false ∧
    size (remove compare t v) + 1 = size t := by
  have hin := inorder_deleteNode hswo t v hbst
  refine ⟨contains_of_equiv hswo.trans heq t v hbst hpres, ?_, ?_⟩
  · rw [remove_eq_deleteNode]
    apply contains_eq_false_of_absent (fun a b h => by rw [← heq]; exact h)
    intro x hx
    rw [hin, List.mem_filter] at hx
    simpa using hx.2
  · rw [remove_eq_deleteNode, ← length_inorder, ← length_inorder, hin]
    exact length_filter_not_equiv hswo v _ (pairwise_of_isBST hswo.trans t hbst) hpres

theorem C4_remove_then_not_contains_witness :
    contains compare_person equal_person
      (remove compare_person
        (fromSequence compare_person [⟨1, "Alice"⟩, ⟨2, "Bob"⟩, ⟨3, "Charlie"⟩])
        ⟨1, "Alice"⟩) ⟨1, "Alice"⟩ = false ∧
    size (remove compare_person
        (fromSequence compare_person [⟨1, "Alice"⟩, ⟨2, "Bob"⟩, ⟨3, "Charlie"⟩])
        ⟨1, "Alice"⟩) + 1 = 3 :=
  (C4_remove_then_not_contains strictWeakOrder_compare_person equal_person_eq_equiv
    (fromSequence compare_person [⟨1, "Alice"⟩, ⟨2, "Bob"⟩, ⟨3, "Charlie"⟩])
    ⟨1, "Alice"⟩ (by decide)
    ⟨⟨1, "Alice"⟩, by simp [fromSequence, insert, inorder, compare_person], by decide⟩).2

/-- C5: removing an absent value is a no-op. If no stored value is ordering-equivalent to `v`
(in particular in the empty tree), `remove(v)` returns the tree unchanged, so `size()` and
every `contains` answer are unchanged; `remove` is total, it signals nothing. Neither the
invariant nor any property of `compare` is needed. -/
theorem C5_remove_absent_noop {compare : T → T → Bool} (t : Node T) (v : T)
    (habs : ∀ x ∈ inorder t, equiv compare x v = false) :
    remove compare t v = t ∧ size (remove compare t v) = size t ∧
    ∀ (equals : T → T → Bool) (w : T),
      contains compare equals (remove compare t v) w = contains compare equals t w := by
  have h : remove compare t v = t := by
    rw [remove_eq_deleteNode]
    exact deleteNode_eq_self_of_absent t v habs
  rw [h]
  exact ⟨rfl, rfl, fun _ _ => rfl⟩

theorem C5_remove_absent_noop_witness :
    remove compare_int (Node.nil : Node Int) 10 = .nil ∧
    remove compare_int (fromSequence compare_int [10, 5, 15, 7]) 20 =
      fromSequence compare_int [10, 5, 15, 7] :=
  ⟨(@C5_remove_absent_noop Int compare_int .nil 10 (by simp [inorder])).1,
   (C5_remove_absent_noop (fromSequence compare_int [10, 5, 15, 7]) 20 (by decide)).1⟩

/-- C6: `remove` preserves the BST order invariant. For a strict weak ordering, a tree that
satisfies the invariant still satisfies it after `remove(v)`, for every `v`: whether a node is
removed or not, whether it is a leaf, has one child or two, and whether or not it is the
root. -/
theorem C6_remove_preserves_isBST {compare : T → T → Bool} (hswo : StrictWeakOrder compare)
    (t : Node T) (v : T) (hbst : isBST compare t = true) :
    isBST compare (remove compare t v) = true := by
  rw [remove_eq_deleteNode]
  exact isBST_deleteNode hswo t v hbst

theorem C6_remove_preserves_isBST_witness :
    isBST compare_int (fromSequence compare_int [10, 5, 15, 7]) = true ∧
    isBST compare_int (remove compare_int (fromSequence compare_int [10, 5, 15, 7]) 10) = true :=
  ⟨by decide, C6_remove_preserves_isBST strictWeakOrder_compare_int
    (fromSequence compare_int [10, 5, 15, 7]) 10 (by decide)⟩

/-- C7: `remove` deletes exactly the target. For a strict weak ordering and a tree that
satisfies the invariant, the in-order sequence after `remove(v)` is the in-order sequence
before with the one value equivalent to `v` erased, the others kept in their order; no value
equivalent to `v` remains. -/
theorem C7_remove_inorder {compare : T → T → Bool} (hswo : StrictWeakOrder compare)
    (t : Node T) (v : T) (hbst : isBST compare t = true) :
    inorder (remove compare t v) = (inorder t).eraseP (fun x => equiv compare x v) ∧
    ∀ x ∈ inorder (remove compare t v), equiv compare x v = false := by
  have hin := inorder_deleteNode hswo t v hbst
  rw [remove_eq_deleteNode]
  refine ⟨?_, ?_⟩
  · rw [hin]
    exact filter_not_equiv_eq_eraseP hswo v _ (pairwise_of_isBST hswo.trans t hbst)
  · intro x hx
    rw [hin, List.mem_filter] at hx
    simpa using hx.2

theorem C7_remove_inorder_witness :
    size (fromSequence compare_int [10, 5, 15, 7]) = 4 ∧
    inorder (fromSequence compare_int [10, 5, 15, 7]) = [5, 7, 10, 15] ∧
    size (remove compare_int (fromSequence compare_int [10, 5, 15, 7]) 10) = 3 ∧
    inorder (remove compare_int (fromSequence compare_int [10, 5, 15, 7]) 10) = [5, 7, 15] ∧
    contains compare_int equal_int
      (remove compare_int (fromSequence compare_int [10, 5, 15, 7]) 10) 10 = false :=
  ⟨by decide, by decide, by decide,
   (C7_remove_inorder strictWeakOrder_compare_int
      (fromSequence compare_int [10, 5, 15, 7]) 10 (by decide)).1.trans (by decide),
   by decide⟩

/-- C8: in-order traversal law. For a strict weak ordering and every tree obtained from the
empty tree by a sequence of `insert` and `remove`, the full cursor walk (from `begin()`,
`++` until `end()`) ends within `size()` steps and the values it produces are strictly
increasing under `compare`. -/
theorem C8_walk_increasing {compare : T → T → Bool} (hswo : StrictWeakOrder compare)
    (ops : List (Op T)) :
    ∃ xs, walk compare (size (applyOps compare .nil ops)) (begin (applyOps compare .nil ops))
        = some xs ∧
      xs.Pairwise (fun a b => compare a b = true) := by
  have hbst : isBST compare (applyOps compare .nil ops) = true :=
    isBST_applyOps hswo ops .nil rfl
  refine ⟨inorder (applyOps compare .nil ops), ?_, pairwise_of_isBST hswo.trans _ hbst⟩
  have hw := walk_eq hswo _ hbst (size (applyOps compare .nil ops)) 0 (by omega)
  rw [← begin_eq] at hw
  simpa using hw

theorem C8_walk_increasing_witness :
    ∃ xs, walk compare_int
        (size (applyOps compare_int .nil
          [.insert 10, .insert 5, .insert 15, .insert 7, .remove 10]))
        (begin (applyOps compare_int .nil
          [.insert 10, .insert 5, .insert 15, .insert 7, .remove 10])) = some xs ∧
      xs.Pairwise (fun a b => compare_int a b = true) :=
  C8_walk_increasing strictWeakOrder_compare_int
    [.insert 10, .insert 5, .insert 15, .insert 7, .remove 10]

/-- C9: the cursor walk agrees with the recursive in-order traversal. For a strict weak
ordering and a tree that satisfies the invariant: the values collected from `begin()` by `++`
until `end()` are the values `toString` visits (left subtree, node, right subtree), which
determine the text it writes; after `k` advances the cursor is on the `k`-th address of the
in-order address sequence, which lists every node of the tree once; so the cursor is off
`end()` before `size()` advances and equal to `end()` after exactly `size()` advances. -/
theorem C9_walk_eq_inorder {compare : T → T → Bool} (hswo : StrictWeakOrder compare)
    (t : Node T) (hbst : isBST compare t = true) :
    walk compare (size t) (begin t) = some (inorder t) ∧
    (∀ (render : T → String) (os : String),
      toString render os t = os ++ String.join ((inorder t).map (fun v => render v ++ " "))) ∧
    (∀ k, advance compare k (begin t) = some { n := (inorderPos t)[k]?, root := t }) ∧
    ((inorderPos t).Nodup ∧ (∀ p, p ∈ inorderPos t ↔ nodeAt t p ≠ .nil) ∧
      (inorderPos t).length = size t) ∧
    (∀ k, k < size t → ∃ it, advance compare k (begin t) = some it ∧
      iterEq it (endIter t) = false) ∧
    advance compare (size t) (begin t) = some (endIter t) := by
  have hbegin := begin_eq t
  have hadv : ∀ k, advance compare k (begin t) = some { n := (inorderPos t)[k]?, root := t } := by
    intro k
    have h := advance_eq hswo t hbst k 0
    rw [← hbegin] at h
    simpa using h
  refine ⟨?_, fun render os => toString_eq render os t, hadv, ⟨nodup_inorderPos t, mem_inorderPos_iff t,
    length_inorderPos t⟩, ?_, ?_⟩
  · have hw := walk_eq hswo t hbst (size t) 0 (by omega)
    rw [← hbegin] at hw
    simpa using hw
  · intro k hk
    refine ⟨_, hadv k, ?_⟩
    have hlt : k < (inorderPos t).length := by rw [length_inorderPos]; exact hk
    simp [iterEq, endIter, List.getElem?_eq_getElem hlt]
  · rw [hadv]
    have hnone : (inorderPos t)[size t]? = none := by
      rw [List.getElem?_eq_none_iff, length_inorderPos]
    rw [hnone]
    rfl

theorem C9_walk_eq_inorder_witness :
    isBST compare_person
      (fromSequence compare_person [⟨2, "Bob"⟩, ⟨1, "Alice"⟩, ⟨3, "Charlie"⟩]) = true ∧
    walk compare_person 3
      (begin (fromSequence compare_person [⟨2, "Bob"⟩, ⟨1, "Alice"⟩, ⟨3, "Charlie"⟩])) =
      some [⟨1, "Alice"⟩, ⟨2, "Bob"⟩, ⟨3, "Charlie"⟩] :=
  ⟨by decide, (C9_walk_eq_inorder strictWeakOrder_compare_person
    (fromSequence compare_person [⟨2, "Bob"⟩, ⟨1, "Alice"⟩, ⟨3, "Charlie"⟩]) (by decide)).1⟩

/-- C10: cursor advance computes the in-order successor. For a strict weak ordering and a tree
that satisfies the invariant, `++` on a cursor at the `i`-th node of the in-order sequence
moves it to the `(i+1)`-th node: the leftmost node of the right subtree when the current node
has a right child; otherwise the ancestor `q` whose left link leads to the current node
through right links only (the lowest ancestor with the current node in its left subtree), and
the terminal cursor when there is none; the terminal cursor when the current node is the
last. -/
theorem C10_preIncrement_successor {compare : T → T → Bool} (hswo : StrictWeakOrder compare)
    (t : Node T) (hbst : isBST compare t = true) (i : Nat) (p : Pos)
    (hp : (inorderPos t)[i]? = some p) :
    preIncrement compare { n := some p, root := t } =
      some { n := (inorderPos t)[i + 1]?, root := t } ∧
    (∀ l v rl rv rr, nodeAt t p = .node l v (.node rl rv rr) →
      (inorderPos t)[i + 1]? = some (p ++ Dir.right :: leftmostPos (.node rl rv rr))) ∧
    (∀ l v, nodeAt t p = .node l v .nil →
      match (inorderPos t)[i + 1]? with
      | some q => ∃ k, p = q ++ Dir.left :: List.replicate k Dir.right
      | none => ∃ k, p = List.replicate k Dir.right) ∧
    (i + 1 = size t → preIncrement compare { n := some p, root := t } = some (endIter t)) := by
  have hnext := getElem_succ_inorderPos t i p hp
  have hstep := preIncrement_eq hswo t hbst p (List.getElem?_mem hp)
  rw [← hnext] at hstep
  refine ⟨hstep, ?_, ?_, ?_⟩
  · intro l v rl rv rr hn
    rw [hnext]
    exact succPos_of_right hn
  · intro l v hn
    rw [hnext]
    exact succPos_of_no_right hn
  · intro hlast
    have hnone : (inorderPos t)[i + 1]? = none := by
      rw [List.getElem?_eq_none_iff, length_inorderPos]
      omega
    rw [hstep, hnone]
    rfl

theorem C10_preIncrement_successor_witness :
    preIncrement compare_person
      ⟨some [Dir.left],
        fromSequence compare_person [⟨2, "Bob"⟩, ⟨1, "Alice"⟩, ⟨3, "Charlie"⟩]⟩ =
      some ⟨some [],
        fromSequence compare_person [⟨2, "Bob"⟩, ⟨1, "Alice"⟩, ⟨3, "Charlie"⟩]⟩ ∧
    preIncrement compare_person (begin (insert compare_person .nil ⟨1, "Alice"⟩)) =
      some (endIter (insert compare_person .nil ⟨1, "Alice"⟩)) :=
  ⟨(C10_preIncrement_successor strictWeakOrder_compare_person
      (fromSequence compare_person [⟨2, "Bob"⟩, ⟨1, "Alice"⟩, ⟨3, "Charlie"⟩])
      (by decide) 0 [Dir.left] (by decide)).1,
   (C10_preIncrement_successor strictWeakOrder_compare_person
      (insert compare_person .nil ⟨1, "Alice"⟩) (by decide) 0 [] (by decide)).2.2.2 (by decide)⟩

/-- C11: `begin()` equals `end()` if and only if the tree is empty. For every tree,
`begin() == end()` exactly when `size()` is 0; on the empty tree both cursors are terminal;
on a non-empty tree `begin()` is on a node of the tree and differs from `end()`. -/
theorem C11_begin_eq_end_iff_empty (t : Node T) :
    (iterEq (begin t) (endIter t) = true ↔ size t = 0) ∧
    ((begin (Node.nil : Node T)).n = none ∧ (endIter (Node.nil : Node T)).n = none) ∧
    (size t ≠ 0 → ∃ p, (begin t).n = some p ∧ nodeAt t p ≠ .nil ∧
      iterEq (begin t) (endIter t) = false) := by
  cases t with
  | nil => simp [iterEq, begin, endIter, size, sizeNode]
  | node l v r =>
    obtain ⟨r2, h⟩ := nodeAt_leftmostPos l v r
    refine ⟨by simp [iterEq, begin, endIter, size, sizeNode], ⟨rfl, rfl⟩, fun _ => ?_⟩
    exact ⟨leftmostPos (.node l v r), rfl, by rw [h]; simp, by simp [iterEq, begin, endIter]⟩

/-- C12: `begin()` yields the minimum. For a strict weak ordering and a non-empty tree that
satisfies the invariant, `*begin()` is the value of the leftmost node (the node reached from
the root through left links only, which has no left child), it is the first value of the
in-order sequence, and no stored value is before it under `compare`. -/
theorem C12_begin_minimum {compare : T → T → Bool} (hswo : StrictWeakOrder compare)
    (t : Node T) (hne : t ≠ .nil) (hbst : isBST compare t = true) :
    ∃ m, deref (begin t) = some m ∧
      (∃ k r2, (begin t).n = some (List.replicate k Dir.left) ∧
        nodeAt t (List.replicate k Dir.left) = .node .nil m r2) ∧
      (inorder t).head? = some m ∧
      ∀ x ∈ inorder t, compare x m = false := by
  cases t with
  | nil => exact absurd rfl hne
  | node l v r =>
    obtain ⟨r2, h⟩ := nodeAt_leftmostPos l v r
    obtain ⟨k, hk⟩ := leftmostPos_eq_replicate (.node l v r)
    obtain ⟨rest, hrest⟩ := inorder_head_leftmostValue l v r
    refine ⟨leftmostValue l v, ?_, ⟨k, r2, ?_, ?_⟩, ?_, leftmostValue_minimal hswo l v r hbst⟩
    · simp [deref, begin, valueAt, h]
    · simp [begin, hk]
    · rw [← hk]; exact h
    · rw [hrest]; rfl

theorem C12_begin_minimum_witness :
    ∃ m, deref (begin (fromSequence compare_int [10, 5, 15, 7])) = some m ∧
      (∃ k r2, (begin (fromSequence compare_int [10, 5, 15, 7])).n
          = some (List.replicate k Dir.left) ∧
        nodeAt (fromSequence compare_int [10, 5, 15, 7]) (List.replicate k Dir.left)
          = .node .nil m r2) ∧
      (inorder (fromSequence compare_int [10, 5, 15, 7])).head? = some m ∧
      ∀ x ∈ inorder (fromSequence compare_int [10, 5, 15, 7]), compare_int x m = false :=
  C12_begin_minimum strictWeakOrder_compare_int (fromSequence compare_int [10, 5, 15, 7])
    (by decide) (by decide)

/-- C13: copy construction and assignment produce an exact copy. For every source `a` and
every prior contents `b` of the destination, the copy-constructed tree and the tree after
`b = a` have the shape and values of `a` (so equal `size()` and equal `contains` answers for
every value and every pair of functors), also under the bounded allocator when it has room for
every node; self-assignment changes nothing; `a` is unchanged; mutations applied afterwards to
one of the two objects leave the other with the contents `a` had; and no cell of a copy is a
cell of its source, every node of the copy being allocated afresh. -/
theorem C13_copy_exact (a b : Node T) :
    (copyConstruct a = a ∧ operatorAssign b a false = a ∧ operatorAssign a a true = a) ∧
    (size (copyConstruct a) = size a ∧ size (operatorAssign b a false) = size a) ∧
    (∀ (compare equals : T → T → Bool) (v : T),
      contains compare equals (copyConstruct a) v = contains compare equals a v ∧
      contains compare equals (operatorAssign b a false) v = contains compare equals a v) ∧
    (∀ budget, size a ≤ budget → operatorAssignAlloc b a budget = (a, false)) ∧
    ((TwoTrees.assignB ⟨a, b⟩).a = a ∧ (TwoTrees.constructB ⟨a, b⟩).a = a) ∧
    (∀ (compare : T → T → Bool) (ops : List (Op T)),
      ((TwoTrees.assignB ⟨a, b⟩).mutateA compare ops).b = a ∧
      ((TwoTrees.assignB ⟨a, b⟩).mutateB compare ops).a = a ∧
      ((TwoTrees.constructB ⟨a, b⟩).mutateA compare ops).b = a ∧
      ((TwoTrees.constructB ⟨a, b⟩).mutateB compare ops).a = a) ∧
    (∀ (fresh : List Nat → Nat), (∀ live, fresh live ∉ live) →
      ∀ (src : Cells T) (live : List Nat), src.toNode = a → (∀ x ∈ src.addrs, x ∈ live) →
        (copyNodesCells fresh src live).1.toNode = a ∧
        ∀ x ∈ (copyNodesCells fresh src live).1.addrs, x ∉ src.addrs) := by
  have hc := copyConstruct_eq a
  have ha : operatorAssign b a false = a := by simp [operatorAssign, hc]
  refine ⟨⟨hc, ha, by simp [operatorAssign]⟩, ⟨by rw [hc], by rw [ha]⟩, ?_,
    fun budget h => operatorAssignAlloc_of_le b a budget h, ⟨rfl, rfl⟩, ?_, ?_⟩
  · intro compare equals v
    rw [hc, ha]
    exact ⟨rfl, rfl⟩
  · intro compare ops
    simp [TwoTrees.assignB, TwoTrees.constructB, TwoTrees.mutateA, TwoTrees.mutateB, ha, hc]
  · intro fresh hfresh src live hsrc hlive
    obtain ⟨h1, h2, _, _, _⟩ := copyNodesCells_fresh fresh hfresh src live
    refine ⟨by rw [h1, hsrc, copyNodes_eq], fun x hx hxs => h2 x hx (hlive x hxs)⟩

theorem C13_copy_exact_witness :
    copyConstruct (fromSequence compare_int [10, 5, 15, 7]) =
      fromSequence compare_int [10, 5, 15, 7] ∧
    operatorAssign (fromSequence compare_int [1, 2]) (fromSequence compare_int [10, 5, 15, 7])
      false = fromSequence compare_int [10, 5, 15, 7] :=
  ⟨(C13_copy_exact (fromSequence compare_int [10, 5, 15, 7])
      (fromSequence compare_int [1, 2])).1.1,
   (C13_copy_exact (fromSequence compare_int [10, 5, 15, 7])
      (fromSequence compare_int [1, 2])).1.2.1⟩

/-- C14: assignment is not atomic on failure. The destination holds 10 and 5, the source
holds 1, 2 and 3, and the allocator serves two more nodes: the copy of the source throws at
its third node, the handler of `operator=` clears the destination, and the exception reaches
the caller with the destination empty. -/
theorem C14_assign_failure_clears_destination :
    size (fromSequence compare_int [10, 5]) = 2 ∧
    operatorAssignAlloc (fromSequence compare_int [10, 5])
      (fromSequence compare_int [1, 2, 3]) 2 = (Node.nil, true) ∧
    size (operatorAssignAlloc (fromSequence compare_int [10, 5])
      (fromSequence compare_int [1, 2, 3]) 2).1 = 0 := by
  refine ⟨by decide, ?_, ?_⟩
  · exact operatorAssignAlloc_of_lt _ _ 2 (by decide)
  · rw [operatorAssignAlloc_of_lt _ _ 2 (by decide)]
    rfl

/-- C15: subtree correctness on a present value. For a strict weak ordering, `equals`
coinciding with ordering-equivalence and a tree that satisfies the invariant, if the node at
address `p` holds a value equivalent to `v` (in particular `v` itself), `subtree(v)` is
identical to the subgraph rooted at that node: its `size()` is the number of nodes of the
subgraph, `contains` is true in it for every value of the subgraph and for `v`. `subtree` is a
function of the tree, which it leaves as it is. -/
theorem C15_subtree_present {compare equals : T → T → Bool} (hswo : StrictWeakOrder compare)
    (heq : ∀ a b, equals a b = equiv compare a b) (t : Node T) (v : T)
    (hbst : isBST compare t = true) (p : Pos) (l r : Node T) (x : T)
    (hnode : nodeAt t p = .node l x r) (hx : equiv compare x v = true) :
    subtree compare equals t v = nodeAt t p ∧
    size (subtree compare equals t v) = size (nodeAt t p) ∧
    (∀ w ∈ inorder (nodeAt t p), contains compare equals (subtree compare equals t v) w = true) ∧
    contains compare equals (subtree compare equals t v) v = true := by
  have hsub : subtree compare equals t v = nodeAt t p := by
    rw [subtree_eq_findNode, hnode]
    exact findNode_eq_of_nodeAt hswo heq t v hbst p l r x hnode hx
  have hb := isBST_nodeAt t p hbst
  have hrefl : ∀ a, equals a a = true := fun a => by rw [heq]; exact equiv_refl hswo a
  rw [hsub]
  refine ⟨rfl, rfl, fun w hw => contains_of_mem hswo hrefl _ w hb hw, ?_⟩
  apply contains_of_equiv hswo.trans heq _ v hb
  rw [hnode]
  exact ⟨x, by simp [inorder], hx⟩

theorem C15_subtree_present_witness :
    size (subtree compare_int equal_int (fromSequence compare_int [10, 5, 15, 7, 2, 4, 9]) 5)
      = 5 ∧
    contains compare_int equal_int
      (subtree compare_int equal_int (fromSequence compare_int [10, 5, 15, 7, 2, 4, 9]) 5) 5
      = true :=
  have h := C15_subtree_present strictWeakOrder_compare_int equal_int_eq_equiv
    (fromSequence compare_int [10, 5, 15, 7, 2, 4, 9]) 5 (by decide) [Dir.left]
    (fromSequence compare_int [2, 4]) (fromSequence compare_int [7, 9]) 5 (by decide)
    (by decide)
  ⟨h.2.1.trans (by decide), h.2.2.2⟩

/-- C16: subtree on an absent value is empty. With `equals` coinciding with
ordering-equivalence, if no stored value is equivalent to `v` then `subtree(v)` is the empty
tree: `size()` is 0 and `contains(v)` is false in it; on the empty tree `subtree` is empty
for every value and every pair of functors. `subtree` is total, it signals nothing. Neither
the invariant nor any property of `compare` is needed. -/
theorem C16_subtree_absent {compare equals : T → T → Bool}
    (heq : ∀ a b, equals a b = equiv compare a b) (t : Node T) (v : T)
    (habs : ∀ x ∈ inorder t, equiv compare x v = false) :
    subtree compare equals t v = .nil ∧
    size (subtree compare equals t v) = 0 ∧
    contains compare equals (subtree compare equals t v) v = false ∧
    ∀ (c e : T → T → Bool) (w : T), subtree c e .nil w = .nil := by
  have hsub : subtree compare equals t v = .nil := by
    rw [subtree_eq_findNode]
    cases h : findNode compare equals t v with
    | nil => rfl
    | node l x r =>
      obtain ⟨hxe, hxm⟩ := findNode_node h
      rw [heq, equiv_symm, habs x hxm] at hxe
      exact absurd hxe (by simp)
  rw [hsub]
  exact ⟨rfl, rfl, rfl, fun _ _ _ => rfl⟩

theorem C16_subtree_absent_witness :
    subtree compare_int equal_int (fromSequence compare_int [10, 5, 20]) 15 = .nil ∧
    size (subtree compare_int equal_int (fromSequence compare_int [10, 5, 20]) 15) = 0 :=
  have h := C16_subtree_absent equal_int_eq_equiv (fromSequence compare_int [10, 5, 20]) 15
    (by decide)
  ⟨h.1, h.2.1⟩

/-- Counterexample to C17 as stated. With persons ordered by id and `equals` comparing id
and name, the tree that holds Alice (id 1) satisfies the invariant and stores a value neither
before nor after Bob (id 1), yet `subtree(Bob)` is empty; with `equal_person` in place of that
`equals` the result is the whole tree: the equality relation decides the result. -/
theorem C17_subtree_equiv_counterexample :
    isBST compare_person (fromSequence compare_person [⟨1, "Alice"⟩]) = true ∧
    (∃ x ∈ inorder (fromSequence compare_person [⟨1, "Alice"⟩]),
      equiv compare_person x ⟨1, "Bob"⟩ = true) ∧
    subtree compare_person (fun a b => decide (a = b))
      (fromSequence compare_person [⟨1, "Alice"⟩]) ⟨1, "Bob"⟩ = .nil ∧
    subtree compare_person equal_person
      (fromSequence compare_person [⟨1, "Alice"⟩]) ⟨1, "Bob"⟩ =
      fromSequence compare_person [⟨1, "Alice"⟩] := by
  refine ⟨by decide, ⟨⟨1, "Alice"⟩, by simp [fromSequence, insert, inorder], by decide⟩,
    by decide, by decide⟩

/-- C17, amended: `subtree` matches by the equality relation on the nodes of the descent
that the ordering steers. For every tree, every value `v` and arbitrary `compare` and
`equals`, `subtree(v)` is the copy of the subgraph rooted at the first node, on the descent
from the root (left when `v` is before the node's value, right otherwise), whose value
`equals` accepts for `v`, and the empty tree exactly when the descent visits no such node;
ordering-equivalence plays no part in the match. -/
theorem C17_subtree_matches_by_equals (compare equals : T → T → Bool) (t : Node T) (v : T) :
    subtree compare equals t v =
      ((descent compare t v).find? (matchesValue equals v)).getD .nil ∧
    (subtree compare equals t v = .nil ↔
      ∀ s ∈ descent compare t v, matchesValue equals v s = false) := by
  rw [subtree_eq_findNode]
  exact ⟨findNode_eq_find_descent compare equals t v, findNode_eq_nil_iff compare equals t v⟩

/-- C18: bulk construction is repeated insertion in sequence order. For a strict weak
ordering and every finite sequence, the tree constructed from the sequence is the tree
obtained from the empty tree by inserting the elements one at a time in sequence order; its
`size()` is the number of first occurrences of ordering-equivalence classes in the sequence
(they form a subsequence of pairwise non-equivalent values that represents every element), and
its in-order sequence is those first occurrences rearranged in increasing order. -/
theorem C18_bulk_construction {compare : T → T → Bool} (hswo : StrictWeakOrder compare)
    (xs : List T) :
    fromSequence compare xs = applyOps compare .nil (xs.map Op.insert) ∧
    size (fromSequence compare xs) = (firstOccurrences compare xs).length ∧
    (inorder (fromSequence compare xs)).Perm (firstOccurrences compare xs) ∧
    (inorder (fromSequence compare xs)).Pairwise (fun a b => compare a b = true) ∧
    (firstOccurrences compare xs).Sublist xs ∧
    (firstOccurrences compare xs).Pairwise (fun a b => equiv compare a b = false) ∧
    ∀ x ∈ xs, ∃ y ∈ firstOccurrences compare xs, equiv compare y x = true := by
  have hperm := perm_inorder_fromSequence hswo xs
  have hbst : isBST compare (fromSequence compare xs) = true :=
    isBST_fromSequence_aux compare xs .nil rfl
  refine ⟨?_, ?_, hperm, pairwise_of_isBST hswo.trans _ hbst, sublist_firstOccurrences compare xs,
    pairwise_not_equiv_firstOccurrences compare xs, exists_equiv_firstOccurrences hswo xs⟩
  · rw [applyOps_map_insert]
    rfl
  · rw [← length_inorder]
    exact hperm.length_eq

theorem C18_bulk_construction_witness :
    size (fromSequence compare_person
      [⟨2, "Bob"⟩, ⟨1, "Alice"⟩, ⟨2, "Bill"⟩, ⟨3, "Charlie"⟩, ⟨1, "Ann"⟩]) = 3 ∧
    (inorder (fromSequence compare_person
      [⟨2, "Bob"⟩, ⟨1, "Alice"⟩, ⟨2, "Bill"⟩, ⟨3, "Charlie"⟩, ⟨1, "Ann"⟩])).Perm
      [⟨2, "Bob"⟩, ⟨1, "Alice"⟩, ⟨3, "Charlie"⟩] :=
  have h := C18_bulk_construction strictWeakOrder_compare_person
    [⟨2, "Bob"⟩, ⟨1, "Alice"⟩, ⟨2, "Bill"⟩, ⟨3, "Charlie"⟩, ⟨1, "Ann"⟩]
  ⟨h.2.1.trans (by decide), h.2.2.1⟩

/-- C19: textual rendering. For every tree, `operator<<` appends to the stream exactly the
concatenation, over the values in in-order sequence (left subtree, node, right subtree), of
the value's rendering followed by one space, nothing else; the empty tree appends nothing and
renders as the empty string. -/
theorem C19_textual_rendering (render : T → String) (os : String) (t : Node T) :
    operatorOut render os t =
      os ++ String.join ((inorder t).map (fun v => render v ++ " ")) ∧
    operatorOut render "" t = String.join ((inorder t).map (fun v => render v ++ " ")) ∧
    operatorOut render os (Node.nil : Node T) = os ∧
    operatorOut render "" (Node.nil : Node T) = "" := by
  refine ⟨toString_eq render os t, ?_, rfl, rfl⟩
  rw [operatorOut, toString_eq]
  apply String.ext
  simp [String.data_append]

/-- C20: ordered filtered print. For a strict weak ordering, a tree that satisfies the
invariant and every predicate, `printIF` ends within `size()` iterations and appends to the
output exactly the in-order sequence of the stored values that satisfy the predicate, each
rendered and followed by one space; those values are in increasing order; for the empty tree
nothing is appended. -/
theorem C20_printIF {compare : T → T → Bool} (hswo : StrictWeakOrder compare)
    (t : Node T) (hbst : isBST compare t = true) (render : T → String) (pred : T → Bool)
    (out : String) :
    printIF compare render pred (size t) t out =
      some (out ++ String.join (((inorder t).filter pred).map (fun v => render v ++ " "))) ∧
    ((inorder t).filter pred).Pairwise (fun a b => compare a b = true) ∧
    ∀ fuel, printIF compare render pred fuel (Node.nil : Node T) out = some out := by
  refine ⟨?_, (pairwise_of_isBST hswo.trans t hbst).filter _, ?_⟩
  · have hw := walk_eq hswo t hbst (size t) 0 (by omega)
    rw [← begin_eq] at hw
    rw [printIF, printIFLoop_eq_walk, hw]
    simp
  · intro fuel
    cases fuel <;> simp [printIF, printIFLoop, begin, iterEq, endIter]

theorem C20_printIF_witness :
    isBST compare_int (fromSequence compare_int [1, 2, 4, 8, 3, 17]) = true ∧
    printIF compare_int Int.repr is_even 6 (fromSequence compare_int [1, 2, 4, 8, 3, 17]) "" =
      some ("" ++ String.join (([1, 2, 3, 4, 8, 17].filter is_even).map
        (fun v => Int.repr v ++ " "))) :=
  ⟨by decide, (C20_printIF strictWeakOrder_compare_int
    (fromSequence compare_int [1, 2, 4, 8, 3, 17]) (by decide) Int.repr is_even "").1⟩

/-- C21: `clear` empties the tree and is idempotent. For every tree, after `clear()` the tree
is the empty tree: `size()` is 0, `contains` is false for every value and every pair of
functors, `begin() == end()`; a second `clear()` yields the same empty tree. With the cells
made explicit, the first `clear()` destroys every cell of the tree once and a `clear()` of the
empty tree destroys nothing. -/
theorem C21_clear_empties (t : Node T) :
    clear t = .nil ∧
    size (clear t) = 0 ∧
    (∀ (compare equals : T → T → Bool) (v : T), contains compare equals (clear t) v = false) ∧
    iterEq (begin (clear t)) (endIter (clear t)) = true ∧
    clear (clear t) = clear t ∧
    (∀ c : Cells T, (deleteSubtreeCells c).Perm c.addrs) ∧
    deleteSubtreeCells (Cells.nil : Cells T) = [] :=
  ⟨rfl, rfl, fun _ _ _ => rfl, rfl, rfl, perm_deleteSubtreeCells, rfl⟩

/-- C22: advancing the terminal cursor is a no-op. For every tree and every cursor equal to
`end()`, pre-increment leaves the cursor as it is, post-increment returns a terminal cursor
and leaves a terminal cursor, and after any number of increments the cursor is still equal to
`end()`. -/
theorem C22_advance_terminal (compare : T → T → Bool) (t : Node T) (it : const_iterator T)
    (hend : iterEq it (endIter t) = true) :
    preIncrement compare it = some it ∧
    postIncrement compare it = some (it, it) ∧
    (∀ k, advance compare k it = some it) ∧
    (∀ k, advance compare k (endIter t) = some (endIter t)) ∧
    ∀ k, ∃ it2, advance compare k it = some it2 ∧ iterEq it2 (endIter t) = true := by
  have hn : it.n = none := by simpa [iterEq, endIter] using hend
  refine ⟨preIncrement_terminal compare it hn, ?_, fun k => advance_terminal compare k it hn,
    fun k => advance_terminal compare k _ rfl,
    fun k => ⟨it, advance_terminal compare k it hn, hend⟩⟩
  simp only [postIncrement, preIncrement_terminal compare it hn]

theorem C22_advance_terminal_witness :
    preIncrement compare_int (endIter (fromSequence compare_int [10, 5, 15, 7])) =
      some (endIter (fromSequence compare_int [10, 5, 15, 7])) ∧
    advance compare_int 3 (begin (Node.nil : Node Int)) = some (begin (Node.nil : Node Int)) :=
  ⟨(C22_advance_terminal compare_int (fromSequence compare_int [10, 5, 15, 7])
      (endIter (fromSequence compare_int [10, 5, 15, 7])) (by decide)).1,
   (C22_advance_terminal compare_int (Node.nil : Node Int) (begin (Node.nil : Node Int))
      (by decide)).2.2.1 3⟩

/-- C23: inserting a new value adds exactly one leaf at its sorted position. For a strict weak
ordering, a tree that satisfies the invariant and a value `v` equivalent to no stored value,
`insert(v)` increases `size()` by 1; the result is the tree with a null link at some address
`p` replaced by a leaf holding `v` (the root when the tree was empty), so every existing node
keeps its position and its value; and the in-order sequence of the result is the in-order
sequence before with `v` inserted at the one place that keeps it strictly increasing. -/
theorem C23_insert_fresh_leaf {compare : T → T → Bool} (hswo : StrictWeakOrder compare)
    (t : Node T) (v : T) (hbst : isBST compare t = true)
    (hfresh : ∀ x ∈ inorder t, equiv compare v x = false) :
    size (insert compare t v) = size t + 1 ∧
    (∃ p, nodeAt t p = .nil ∧ insert compare t v = replaceAt t p (.node .nil v .nil) ∧
      nodeAt (insert compare t v) p = .node .nil v .nil ∧ (t = .nil → p = [])) ∧
    (∀ q, nodeAt t q ≠ .nil → valueAt (insert compare t v) q = valueAt t q) ∧
    (∃ pre post, inorder t = pre ++ post ∧ inorder (insert compare t v) = pre ++ v :: post ∧
      ∀ pre2 post2, inorder t = pre2 ++ post2 →
        (pre2 ++ v :: post2).Pairwise (fun a b => compare a b = true) →
        pre2 = pre ∧ post2 = post) ∧
    (inorder (insert compare t v)).Pairwise (fun a b => compare a b = true) := by
  refine ⟨(insert_fresh t v hfresh).1, insert_eq_replaceAt t v hfresh,
    valueAt_insert_of_node compare t v, ?_,
    pairwise_of_isBST hswo.trans _ (isBST_insert compare t v hbst)⟩
  refine ⟨(inorder t).filter (fun x => compare x v), (inorder t).filter (fun x => compare v x),
    split_of_pairwise hswo v _ (pairwise_of_isBST hswo.trans t hbst) hfresh,
    inorder_insert_fresh hswo t v hbst hfresh, ?_⟩
  intro pre2 post2 hsplit hpw
  have h := split_unique hswo v pre2 post2 hpw
  rw [← hsplit] at h
  exact ⟨h.1, h.2⟩

theorem C23_insert_fresh_leaf_witness :
    size (insert compare_int (fromSequence compare_int [10, 5, 15]) 7) = 3 + 1 ∧
    inorder (insert compare_int (fromSequence compare_int [10, 5, 15]) 7) = [5, 7, 10, 15] :=
  have h := C23_insert_fresh_leaf strictWeakOrder_compare_int
    (fromSequence compare_int [10, 5, 15]) 7 (by decide) (by decide)
  ⟨h.1, by decide⟩

/-- C24: two-children deletion replaces the target with its in-order successor. For a strict
weak ordering and a tree that satisfies the invariant, if the node at address `p` holds a
value equivalent to `v` and has a left and a right child, then after `remove(v)` the tree is
unchanged outside that node's subtree and the node at `p` carries the value of the leftmost
node of the original right subtree, has the original left subtree as left subtree, and has as
right subtree the original right subtree without its leftmost node: one node fewer, the
in-order sequence without its first value. -/
theorem C24_two_children_deletion {compare : T → T → Bool} (hswo : StrictWeakOrder compare)
    (t : Node T) (v : T) (hbst : isBST compare t = true) (p : Pos)
    (ll lr rl rr : Node T) (lx x rv : T)
    (hnode : nodeAt t p = .node (.node ll lx lr) x (.node rl rv rr))
    (hx : equiv compare x v = true) :
    remove compare t v = replaceAt t p (.node (.node ll lx lr) (leftmostValue rl rv)
      (removeLeftmost (.node rl rv rr))) ∧
    nodeAt (remove compare t v) p = .node (.node ll lx lr) (leftmostValue rl rv)
      (removeLeftmost (.node rl rv rr)) ∧
    valueAt (.node rl rv rr) (leftmostPos (.node rl rv rr)) = some (leftmostValue rl rv) ∧
    size (removeLeftmost (.node rl rv rr)) + 1 = size (.node rl rv rr) ∧
    inorder (.node rl rv rr) = leftmostValue rl rv :: inorder (removeLeftmost (.node rl rv rr)) := by
  have hbr : isBST compare (.node rl rv rr) = true := by
    have h := isBST_nodeAt t p hbst
    rw [hnode] at h
    simp only [isBST, Bool.and_eq_true] at h ⊢
    simpa [isBST] using h.2
  have hrem : remove compare t v = replaceAt t p (.node (.node ll lx lr) (leftmostValue rl rv)
      (removeLeftmost (.node rl rv rr))) := by
    rw [remove_eq_deleteNode, deleteNode_eq_replaceAt hswo t v hbst p _ _ x hnode hx,
      deleteNode_two_children ll lr rl rr lx x rv v hx, deleteNode_leftmostValue hswo rl rv rr hbr]
  have hin := inorder_removeLeftmost rl rv rr
  refine ⟨hrem, ?_, valueAt_leftmostPos rl rv rr, ?_, hin⟩
  · rw [hrem]
    exact nodeAt_replaceAt t p _ (by rw [hnode]; simp)
  · rw [← length_inorder, ← length_inorder, hin]
    rfl

theorem C24_two_children_deletion_witness :
    remove compare_int (fromSequence compare_int [10, 5, 15, 7, 12, 20]) 10 =
      .node (fromSequence compare_int [5, 7]) 12 (fromSequence compare_int [15, 20]) :=
  (C24_two_children_deletion strictWeakOrder_compare_int
    (fromSequence compare_int [10, 5, 15, 7, 12, 20]) 10 (by decide) []
    .nil (fromSequence compare_int [7]) (fromSequence compare_int [12])
    (fromSequence compare_int [20]) 5 10 15 (by decide) (by decide)).1.trans (by decide)

/-- C25: `contains` trusts the ordering for the descent and the equality relation for the
match. With persons ordered by id (a strict weak ordering) and `equals` comparing id and name,
the tree built from Bob (2), Alice (1), Charlie (3) satisfies the invariant and holds Alice,
the query `v` with id 1 and name Al is ordering-equivalent to Alice and differs from her
under `equals`; `contains(v)` is false, `insert(v)` leaves the tree and `size()` as they are,
and `remove(v)` removes Alice. -/
theorem C25_contains_trusts_equals :
    ∃ (compare equals : Person → Person → Bool) (t : Node Person) (x v : Person),
      StrictWeakOrder compare ∧ isBST compare t = true ∧ x ∈ inorder t ∧
      equiv compare x v = true ∧ equals v x = false ∧
      contains compare equals t v = false ∧
      insert compare t v = t ∧ size (insert compare t v) = size t ∧
      x ∉ inorder (remove compare t v) ∧ size (remove compare t v) + 1 = size t := by
  refine ⟨compare_person, fun a b => decide (a = b),
    fromSequence compare_person [⟨2, "Bob"⟩, ⟨1, "Alice"⟩, ⟨3, "Charlie"⟩],
    ⟨1, "Alice"⟩, ⟨1, "Al"⟩, strictWeakOrder_compare_person, by decide, by decide, by decide,
    by decide, by decide, by decide, by decide, by decide, by decide⟩

/-- C27: `contains` and `subtree` agree on presence for arbitrary relations. For every tree,
every value and every `compare` and `equals`: `contains(v)` is true if and only if
`subtree(v)` has positive `size()`; both searches walk the same descent and apply
`equals` to the same nodes, `contains` answering whether some node matches and `subtree`
returning the first that does; and when `subtree(v)` is non-empty, `contains(v)` is true on
the tree it returns. -/
theorem C27_contains_iff_subtree (compare equals : T → T → Bool) (t : Node T) (v : T) :
    (contains compare equals t v = true ↔ 0 < size (subtree compare equals t v)) ∧
    contains compare equals t v = (descent compare t v).any (matchesValue equals v) ∧
    subtree compare equals t v =
      ((descent compare t v).find? (matchesValue equals v)).getD .nil ∧
    (0 < size (subtree compare equals t v) →
      contains compare equals (subtree compare equals t v) v = true) := by
  rw [subtree_eq_findNode, size_pos_iff]
  exact ⟨contains_iff_findNode compare equals t v, contains_eq_any_descent compare equals t v,
    findNode_eq_find_descent compare equals t v, contains_findNode compare equals t v⟩

/-- C28: insert followed by remove of a fresh value is the identity. For a strict weak
ordering and a value `v` equivalent to no stored value, `insert(v)` followed by `remove(v)`
gives back the tree, same shape and same values. Of the ordering only irreflexivity is used,
and the invariant is not needed. -/
theorem C28_insert_remove_fresh {compare : T → T → Bool} (hswo : StrictWeakOrder compare)
    (t : Node T) (v : T) (hfresh : ∀ x ∈ inorder t, equiv compare v x = false) :
    remove compare (insert compare t v) v = t := by
  rw [remove_eq_deleteNode]
  exact deleteNode_insert_fresh hswo.irrefl t v hfresh

theorem C28_insert_remove_fresh_witness :
    remove compare_int (insert compare_int (fromSequence compare_int [10, 5, 15, 7]) 12) 12 =
      fromSequence compare_int [10, 5, 15, 7] :=
  C28_insert_remove_fresh strictWeakOrder_compare_int
    (fromSequence compare_int [10, 5, 15, 7]) 12 (by decide)

/-- C29: the tree returned by `subtree` is itself a valid search tree. For every tree that
satisfies the invariant, every value and every `compare` and `equals`, `subtree(v)` satisfies
the invariant; hence, for a strict weak ordering, `insert` and `remove` keep the invariant on
it and the cursor walk over it yields its in-order sequence, strictly increasing. -/
theorem C29_subtree_isBST (compare equals : T → T → Bool) (t : Node T) (v : T)
    (hbst : isBST compare t = true) :
    isBST compare (subtree compare equals t v) = true ∧
    (StrictWeakOrder compare →
      (∀ w, isBST compare (insert compare (subtree compare equals t v) w) = true ∧
        isBST compare (remove compare (subtree compare equals t v) w) = true) ∧
      walk compare (size (subtree compare equals t v)) (begin (subtree compare equals t v)) =
        some (inorder (subtree compare equals t v)) ∧
      (inorder (subtree compare equals t v)).Pairwise (fun a b => compare a b = true)) := by
  have hsub : isBST compare (subtree compare equals t v) = true := by
    rw [subtree_eq_findNode]
    exact isBST_findNode compare equals t v hbst
  refine ⟨hsub, fun hswo => ⟨fun w => ⟨isBST_insert compare _ w hsub, ?_⟩, ?_,
    pairwise_of_isBST hswo.trans _ hsub⟩⟩
  · rw [remove_eq_deleteNode]
    exact isBST_deleteNode hswo _ w hsub
  · have hw := walk_eq hswo _ hsub (size (subtree compare equals t v)) 0 (by omega)
    rw [← begin_eq] at hw
    simpa using hw

theorem C29_subtree_isBST_witness :
    isBST compare_int
      (subtree compare_int equal_int (fromSequence compare_int [10, 5, 15, 7, 2, 4, 9]) 5)
      = true :=
  (C29_subtree_isBST compare_int equal_int (fromSequence compare_int [10, 5, 15, 7, 2, 4, 9]) 5
    (by decide)).1

/-- C26: the cursor's re-descent from the root is safe and terminates. For a strict weak
ordering, a tree that satisfies the invariant and a cursor on the node at address `p`, which
has no right child, the loop of `++` moves `current` through the prefixes of `p`, shortest
first: each of them is a node of the tree (never a null link), the last one is the cursor's
node, and the loop body runs `p.length` times, fewer than the height of the tree; so the loop
and `++` return a result. -/
theorem C26_redescent_safe {compare : T → T → Bool} (hswo : StrictWeakOrder compare)
    (t : Node T) (hbst : isBST compare t = true) (p : Pos) (l : Node T) (v : T)
    (hnode : nodeAt t p = .node l v .nil) :
    redescendVisits compare v p t [] = some (List.inits p) ∧
    (List.inits p).getLast? = some p ∧
    (∀ q ∈ List.inits p, nodeAt t q ≠ .nil) ∧
    ((List.inits p).length = p.length + 1 ∧ p.length < height t) ∧
    (∀ parent, (redescend compare v p t [] parent).isSome =
      (redescendVisits compare v p t []).isSome) ∧
    (∃ parent, redescend compare v p t [] none = some parent) ∧
    ∃ it, preIncrement compare { n := some p, root := t } = some it := by
  have hne : nodeAt t p ≠ .nil := by rw [hnode]; simp
  have hvis := redescendVisits_eq hswo v t p [] l .nil hbst hnode
  simp only [List.nil_append, List.map_id_fun', id_eq] at hvis
  have hre := redescend_eq hswo v t p [] none l hbst hnode
  simp only [List.nil_append] at hre
  refine ⟨hvis, getLast_inits p, ?_, ⟨List.length_inits p, length_lt_height t p hne⟩,
    fun parent => redescend_isSome_eq compare v p t [] parent, ⟨_, hre⟩,
    ⟨_, preIncrement_eq hswo t hbst p ((mem_inorderPos_iff t p).mpr hne)⟩⟩
  intro q hq
  exact nodeAt_ne_nil_of_prefix t q p ((List.mem_inits q p).mp hq) hne

theorem C26_redescent_safe_witness :
    redescendVisits compare_int 7 [Dir.left, Dir.right]
      (fromSequence compare_int [10, 5, 15, 7]) [] =
      some [[], [Dir.left], [Dir.left, Dir.right]] :=
  (C26_redescent_safe strictWeakOrder_compare_int (fromSequence compare_int [10, 5, 15, 7])
    (by decide) [Dir.left, Dir.right] .nil 7 (by decide)).1

end BinarySearchTree
